import Mathlib

/-!
Verification of the parsing-and-aggregation engine of timeloss.run
(`src/utils/parse-livesplit.ts`), as a shallow embedding in Lean 4.

Modelling conventions:
* DOM access is abstracted into plain data (`SegmentDecl`, `AttemptDecl`,
  `TimeEntry`, `Doc`); attribute text is carried as `String`/`Option String`.
* JavaScript numbers that can be `NaN` are `Option Int` (`none` = `NaN`);
  the `ended`/`started` timestamps are carried as millisecond instants
  (the external date-fns `'MM/dd/yyyy HH:mm:ss'` parse result), with
  `ended = none` for a missing `ended` attribute.
* JS `Record` objects are association lists in insertion order; `aset`
  mirrors `{...obj, [k]: v}` (replace in place, else append).
* `uuid()` identities are replaced by the segment's position index, which
  is the same identity scheme up to renaming (the spec explicitly allows
  an index-derived key).
* date-fns `parse(s, 'HH:mm:ss.SSSSSSS', ref)` followed by
  `differenceInMilliseconds(·, startOfDay ·)` is embedded as
  `dateFnsClock`: 1-2 digit hour/minute/second fields, a mandatory `.`
  plus 1-7 fraction digits whose numeric value is scaled by the fixed
  7-digit token length (`⌊digits / 10^4⌋` milliseconds), full-input match,
  `Invalid Date`/`NaN` results modelled as `none`.  Number literals are
  modelled as the exact rationals they denote in the source text.
-/

namespace Timeloss

/-- `alookup m k` models a JavaScript record read `m[k]` (`none` = absent). -/
def alookup {α β : Type} [DecidableEq α] : List (α × β) → α → Option β
  | [], _ => none
  | (k, v) :: rest, key => if k = key then some v else alookup rest key

/-- `aset m k v` models `{...m, [k]: v}`: replace the value at `k` in place
if the key is present, otherwise append the new key. -/
def aset {α β : Type} [DecidableEq α] : List (α × β) → α → β → List (α × β)
  | [], key, val => [(key, val)]
  | (k, v) :: rest, key, val =>
    if k = key then (key, val) :: rest else (k, v) :: aset rest key val

/-- Numeric value of an ASCII digit. -/
def digitVal (c : Char) : ℕ := c.toNat - 48

/-- Numeric value of a digit string (`Number(...)` on an all-digit string). -/
def digitsVal (ds : List Char) : ℕ := ds.foldl (fun acc c => 10 * acc + digitVal c) 0

/-- date-fns `parseNDigits(2)`: one or two leading ASCII digits. -/
def parse2Digits : List Char → Option (ℕ × List Char)
  | [] => none
  | c :: rest =>
    if c.isDigit then
      match rest with
      | [] => some (digitVal c, [])
      | c2 :: rest2 =>
        if c2.isDigit then some (10 * digitVal c + digitVal c2, rest2)
        else some (digitVal c, c2 :: rest2)
    else none

/-- Match one literal character of the format string. -/
def expectCh (ch : Char) : List Char → Option (List Char)
  | [] => none
  | c :: rest => if c = ch then some rest else none

/-- Take up to `n` leading ASCII digits. -/
def takeDigits : ℕ → List Char → List Char × List Char
  | 0, cs => ([], cs)
  | _ + 1, [] => ([], [])
  | n + 1, c :: cs =>
    if c.isDigit then
      let p := takeDigits n cs
      (c :: p.1, p.2)
    else ([], c :: cs)

/-- `String.prototype.trim()` on the character list. -/
def trimChars (cs : List Char) : List Char :=
  ((cs.dropWhile Char.isWhitespace).reverse.dropWhile Char.isWhitespace).reverse

/-- The `/^([0-9]+)\./` day-count strip shared by `parseTimestamp` and the
pause-time branch of `calculateAttemptDuration`: if the input starts with
digits followed by `.`, return their value and everything after that first
dot (the source splits on `.`, drops the first component and rejoins). -/
def stripDays (cs : List Char) : ℕ × List Char :=
  let ds := cs.takeWhile Char.isDigit
  let rest := cs.dropWhile Char.isDigit
  match rest with
  | '.' :: rest2 => if ds.isEmpty then (0, cs) else (digitsVal ds, rest2)
  | _ => (0, cs)

/-- The `/\.[0-9]+$/` test: does the string end in a dot followed by at
least one digit? -/
def hasFracSuffix (cs : List Char) : Bool :=
  !(cs.reverse.takeWhile Char.isDigit).isEmpty &&
    ((cs.reverse.dropWhile Char.isDigit).head? == some '.')

/-- The `HH:mm:ss` part of the date-fns format: 1-2 digit fields, `:`
separators, ranges validated (hour 0-23, minute/second 0-59).  Returns the
offset from start of day in milliseconds (sans fraction) and the rest. -/
def parseHMS (cs : List Char) : Option (ℕ × List Char) :=
  (parse2Digits cs).bind (fun p1 =>
    (expectCh ':' p1.2).bind (fun r2 =>
      (parse2Digits r2).bind (fun p2 =>
        (expectCh ':' p2.2).bind (fun r4 =>
          (parse2Digits r4).bind (fun p3 =>
            if p1.1 ≤ 23 ∧ p2.1 ≤ 59 ∧ p3.1 ≤ 59 then
              some (3600000 * p1.1 + 60000 * p2.1 + 1000 * p3.1, p3.2)
            else none)))))

/-- `parse(cs, 'HH:mm:ss.SSSSSSS', ref)` then offset from `startOfDay`:
the whole input must be consumed; the 1-7 digit fraction contributes
`⌊digits / 10^4⌋` milliseconds (date-fns scales the matched value by the
fixed 7-digit token length).  `none` models an Invalid Date, i.e. the
`NaN` that `differenceInMilliseconds` then produces. -/
def dateFnsClock (cs : List Char) : Option ℕ :=
  (parseHMS cs).bind (fun br =>
    (expectCh '.' br.2).bind (fun r2 =>
      if (takeDigits 7 r2).1.isEmpty then none
      else if (takeDigits 7 r2).2.isEmpty then some (br.1 + digitsVal (takeDigits 7 r2).1 / 10000)
      else none))

/-- Pad a missing fractional-second suffix with the canonical
`.0000000` (lines 38-42 of the source). -/
def padFrac (cs : List Char) : List Char :=
  if hasFracSuffix cs then cs else cs ++ ('.' :: List.replicate 7 '0')

/-- `parseTimestamp` (source lines 25-47): trim, strip a leading day-count
group, pad a missing fractional suffix, parse the clock and add
`days × 86 400 000`.  `none` models the `NaN` result on a clock that does
not parse. -/
def parseTimestamp (s : String) : Option Int :=
  let cs := trimChars s.toList
  let d := stripDays cs
  (dateFnsClock (padFrac d.2)).map (fun (off : ℕ) => (d.1 : Int) * 86400000 + (off : Int))

/-- Follows the spec text for the Timestamp Parser (§4.1): the clock
portion is `HH:mm:ss` (1-2 digit fields as accepted by the format tokens)
with an *optional* fractional-second suffix of up to 7 digits; a matching
input yields the clock offset from start of day.  Used to compare the
spec's optional-suffix pattern with the implementation's padding trick. -/
def specClockPattern (cs : List Char) : Option ℕ :=
  (parseHMS cs).bind (fun br =>
    if br.2 = [] then some br.1
    else
      (expectCh '.' br.2).bind (fun r2 =>
        if (takeDigits 7 r2).1.isEmpty then none
        else if (takeDigits 7 r2).2.isEmpty then some (br.1 + digitsVal (takeDigits 7 r2).1 / 10000)
        else none))

/-- A segment of the internal model (the DOM `element` back-pointer of the
source interface is dropped; identities are index-derived). -/
structure Segment where
  id : ℕ
  name : String
  index : ℕ
  nextSegmentId : Option ℕ
  isLastSegment : Bool
  totalDeaths : ℕ
  deriving DecidableEq

/-- A run/attempt of the internal model.  `segmentTimes` maps a segment id
to `none` (JS `null`) or `some t` with `t : Option Int` a possibly-`NaN`
millisecond value. -/
structure Run where
  id : String
  segmentTimes : List (ℕ × Option (Option Int))
  totalDuration : Option Int
  lastRecordedSegment : Option Segment
  deathSegment : Option Segment
  isComplete : Bool
  deriving DecidableEq

/-- A `<SegmentHistory><Time id=...>` element: the cited attempt id and the
optional `GameTime`/`RealTime` child text. -/
structure TimeEntry where
  runId : String
  gameTime : Option String
  realTime : Option String
  deriving DecidableEq

/-- A `<Segment>` element: optional `<Name>` text and its history. -/
structure SegmentDecl where
  name : Option String
  history : List TimeEntry
  deriving DecidableEq

/-- An `<Attempt>` element.  `started`/`ended` carry the external
date-parser's millisecond instants; `ended = none` models a missing
`ended` attribute. -/
structure AttemptDecl where
  id : String
  started : Int
  ended : Option Int
  pauseTime : Option String
  deriving DecidableEq

/-- The document: the ordered segment declarations and the ordered
`AttemptHistory` attempts. -/
structure Doc where
  segments : List SegmentDecl
  attempts : List AttemptDecl
  deriving DecidableEq

/-- The result model (`LivesplitData`). -/
structure LivesplitData where
  segments : List Segment
  runs : List (String × Run)
  runCount : ℕ
  totalDuration : Option Int
  longestAttemptDuration : Option Int
  personalBest : Option Run
  deriving DecidableEq

/-- The segment built for position `i` of `total` declarations
(`assignIDsToSegments` body, with the index as the assigned identity). -/
def mkSeg (total i : ℕ) (d : SegmentDecl) : Segment :=
  { id := i, name := d.name.getD "<Unnamed>", index := i,
    nextSegmentId := if i + 1 < total then some (i + 1) else none,
    isLastSegment := i == total - 1, totalDeaths := 0 }

/-- Build the segments of positions `i, i+1, ...` for the given suffix of
declarations. -/
def buildSegments (total : ℕ) : ℕ → List SegmentDecl → List Segment
  | _, [] => []
  | i, d :: rest => mkSeg total i d :: buildSegments total (i + 1) rest

/-- `assignIDsToSegments` (source lines 50-82): one pass in document
order; segment `i-1` points at segment `i`; the final element is flagged
terminal; all death totals start at 0. -/
def assignIDsToSegments (decls : List SegmentDecl) : List Segment :=
  buildSegments decls.length 0 decls

/-- `calculateAttemptDuration` (source lines 84-113): no `ended`
attribute gives 0; otherwise `(ended - started)` minus the day-prefix
milliseconds and the parsed pause clock.  A pause clock that fails to
parse poisons the result to `NaN` (`none`). -/
def calculateAttemptDuration (a : AttemptDecl) : Option Int :=
  match a.ended with
  | none => some 0
  | some endedMs =>
    match a.pauseTime with
    | none => some (endedMs - a.started)
    | some p =>
      let d := stripDays (trimChars p.toList)
      (dateFnsClock d.2).map
        (fun (off : ℕ) => endedMs - a.started - (d.1 : Int) * 86400000 - (off : Int))

/-- The fresh run record built for one attempt (source lines 130-140). -/
def initRun (a : AttemptDecl) : Run :=
  { id := a.id, segmentTimes := [], totalDuration := calculateAttemptDuration a,
    lastRecordedSegment := none, deathSegment := none, isComplete := false }

/-- `runDataFromAttempts` (source lines 127-141). -/
def runDataFromAttempts (attempts : List AttemptDecl) : List (String × Run) :=
  attempts.foldl (fun acc a => aset acc a.id (initRun a)) []

/-- `timeElement ? parseTimestamp(timeElement.textContent) : null` with
`timeElement = GameTime || RealTime` (source lines 148 and 158). -/
def entryValue (e : TimeEntry) : Option (Option Int) :=
  match e.gameTime with
  | some g => some (parseTimestamp g)
  | none => e.realTime.map parseTimestamp

/-- One step of the segment-time correlator's inner reduce (source lines
146-162): entries citing an unknown attempt id leave the record
unchanged. -/
def applyEntry (sid : ℕ) (acc : List (String × Run)) (e : TimeEntry) : List (String × Run) :=
  match alookup acc e.runId with
  | none => acc
  | some run =>
    aset acc e.runId { run with segmentTimes := aset run.segmentTimes sid (entryValue e) }

/-- Pair each list element with its position, starting at `i`. -/
def enumFrom {α : Type} : ℕ → List α → List (ℕ × α)
  | _, [] => []
  | i, x :: rest => (i, x) :: enumFrom (i + 1) rest

/-- The segment-time correlator (source lines 143-163): fold every
segment's history entries over the attempt record, keyed by the identity
assigned to that segment. -/
def correlate (decls : List SegmentDecl) (base : List (String × Run)) : List (String × Run) :=
  (enumFrom 0 decls).foldl (fun acc p => p.2.history.foldl (applyEntry p.1) acc) base

/-- `segmentsById[k]` as a search by assigned id. -/
def lookupSeg (sbid : List Segment) (k : ℕ) : Option Segment :=
  sbid.find? (fun s => s.id == k)

/-- `segmentsById[id].index` inside the `Math.max` reduce.  The record
lookup cannot miss (every key of `segmentTimes` is an assigned id); a
missing key is modelled as `-1`, the fold's identity.  -/
def segIdx (sbid : List Segment) (k : ℕ) : Int :=
  match lookupSeg sbid k with
  | some s => (s.index : Int)
  | none => -1

/-- The per-run metadata step (source lines 167-181): last recorded
segment via the max key index (`-1` when no keys), completion via
`lastRecordedSegment?.isLastSegment ?? false`, and the death segment via
`hasNoRecordedSegments ? firstSegment :
(lastRecordedSegment?.nextSegmentId && segmentsById[...])`. -/
def metaRun (sbid : List Segment) (firstSeg : Option Segment) (run : Run) : Run :=
  let lastIdx : Int :=
    (run.segmentTimes.map Prod.fst).foldl (fun acc k => max (segIdx sbid k) acc) (-1)
  let lastSeg := sbid.find? (fun s => (s.index : Int) == lastIdx)
  { run with
    lastRecordedSegment := lastSeg,
    isComplete := (lastSeg.map Segment.isLastSegment).getD false,
    deathSegment :=
      if run.segmentTimes.isEmpty then firstSeg
      else lastSeg.bind (fun s => s.nextSegmentId.bind (lookupSeg sbid)) }

/-- `runsWithMetadata` (source lines 165-181). -/
def runsWithMetadata (sbid : List Segment) (runs : List (String × Run)) :
    List (String × Run) :=
  let firstSeg := sbid.find? (fun s => s.index == 0)
  runs.map (fun p => (p.1, metaRun sbid firstSeg p.2))

/-- `run.deathSegment?.id === id`. -/
def deathMatches (sid : ℕ) (run : Run) : Bool :=
  (run.deathSegment.map Segment.id) == some sid

/-- `segmentsWithMetadata` (source lines 183-191): count the runs whose
death segment id equals this segment's id. -/
def segmentsWithMetadata (sbid : List Segment) (runs : List (String × Run)) :
    List Segment :=
  sbid.map (fun s =>
    { s with totalDeaths := (runs.filter (fun p => deathMatches s.id p.2)).length })

/-- JS `+` on possibly-`NaN` numbers. -/
def jsAdd : Option Int → Option Int → Option Int
  | some a, some b => some (a + b)
  | _, _ => none

/-- JS `<` on possibly-`NaN` numbers (`NaN` comparisons are false). -/
def jsLt : Option Int → Option Int → Bool
  | some a, some b => a < b
  | _, _ => false

/-- `Math.max` on two possibly-`NaN` numbers. -/
def jsMax : Option Int → Option Int → Option Int
  | some a, some b => some (max a b)
  | _, _ => none

/-- `Math.max(...list)`: `none` models a non-finite result (the empty
maximum `-Infinity`, or `NaN` from a poisoned element). -/
def jsMaxList : List (Option Int) → Option Int
  | [] => none
  | x :: xs => xs.foldl jsMax x

/-- One step of the `personalBest` reduce (source lines 201-205).  Note:
it compares `totalDuration` only and never consults `isComplete`. -/
def pbStep (best : Option Run) (run : Run) : Option Run :=
  match best with
  | none => some run
  | some b => if jsLt run.totalDuration b.totalDuration then some run else some b

/-- `parseLivesplitDocument` (source lines 124-207). -/
def parseLivesplitDocument (doc : Doc) : LivesplitData :=
  let sbid := assignIDsToSegments doc.segments
  let runsC := correlate doc.segments (runDataFromAttempts doc.attempts)
  let rwm := runsWithMetadata sbid runsC
  let runList := rwm.map Prod.snd
  { segments := segmentsWithMetadata sbid rwm,
    runs := rwm,
    runCount := runList.length,
    totalDuration := runList.foldl (fun acc r => jsAdd acc r.totalDuration) (some 0),
    longestAttemptDuration := jsMaxList (runList.map Run.totalDuration),
    personalBest := runList.foldl pbStep none }

/-- The percentile targets `[0.5, 0.75, 0.9, 0.95]` as the exact
rationals denoted by the source literals, as numerator/denominator
pairs. -/
def PERCENTILES : List (ℕ × ℕ) := [(1, 2), (3, 4), (9, 10), (19, 20)]

/-- The inner loop of `calculatePercentiles` (source lines 213-222): walk
the segments accumulating deaths and return the first segment whose
running total strictly exceeds the target.  The float comparison
`sum / runCount > pn/pd` is embedded by cross-multiplication
`pd * sum > pn * runCount`, which also agrees with IEEE semantics at
`runCount = 0` (`sum/0` is `Infinity > p` iff `sum > 0`, and `0/0` is
`NaN`, never `> p`). -/
def percentileScan (runCount pn pd : ℕ) : ℕ → List Segment → Option Segment
  | _, [] => none
  | sum, s :: rest =>
    let sum2 := sum + s.totalDeaths
    if pd * sum2 > pn * runCount then some s
    else percentileScan runCount pn pd sum2 rest

/-- `calculatePercentiles` (source lines 209-226). -/
def calculatePercentiles (d : LivesplitData) : List ((ℕ × ℕ) × Segment) :=
  PERCENTILES.foldl
    (fun acc p =>
      match percentileScan d.runCount p.1 p.2 0 d.segments with
      | some s => aset acc p s
      | none => acc)
    []

/-- The last history entry of a segment citing the given attempt id: the
entry whose write survives the correlator's left fold. -/
def lastEntryFor (es : List TimeEntry) (rid : String) : Option TimeEntry :=
  (es.filter (fun e => e.runId == rid)).getLast?

/-- Cumulative death total over the first `k` segments. -/
def cumDeaths (segs : List Segment) (k : ℕ) : ℕ :=
  ((segs.take k).map Segment.totalDeaths).sum

/-- Number of complete runs in an attempt record. -/
def completedCount (runs : List (String × Run)) : ℕ :=
  (runs.filter (fun p => p.2.isComplete)).length

/-- Sum of the per-segment death totals. -/
def sumTotalDeaths (segs : List Segment) : ℕ :=
  (segs.map Segment.totalDeaths).sum

/-! ### Concrete documents used by witnesses and counterexamples -/

/-- The segment snapshot assigned to the single segment of `cDocC1`. -/
def cSegA1 : Segment :=
  { id := 0, name := "A", index := 0, nextSegmentId := none,
    isLastSegment := true, totalDeaths := 0 }

/-- An attempt that finished (wall-clock span 5000 ms, a time entry for the
terminal segment). -/
def cAtt1C1 : AttemptDecl := { id := "1", started := 0, ended := some 5000, pauseTime := none }

/-- An attempt with no `ended` attribute and no recorded segment times. -/
def cAtt2C1 : AttemptDecl := { id := "2", started := 0, ended := none, pauseTime := none }

/-- One segment; attempt 1 completes it, attempt 2 reaches nothing. -/
def cDocC1 : Doc :=
  { segments := [{ name := some "A",
                   history := [{ runId := "1", gameTime := none,
                                 realTime := some "00:00:05.0000000" }] }],
    attempts := [cAtt1C1, cAtt2C1] }

/-- The result-model run of attempt 2 in `cDocC1`. -/
def cRun2C1 : Run :=
  { id := "2", segmentTimes := [], totalDuration := some 0,
    lastRecordedSegment := none, deathSegment := some cSegA1, isComplete := false }

/-- Two segments; the attempt has a real time on segment 0 and a `Time`
entry with no time element (a null value) on segment 1. -/
def cDocC2 : Doc :=
  { segments := [{ name := some "A",
                   history := [{ runId := "1", gameTime := none,
                                 realTime := some "00:00:05.0000000" }] },
                 { name := some "B",
                   history := [{ runId := "1", gameTime := none, realTime := none }] }],
    attempts := [{ id := "1", started := 0, ended := some 1000, pauseTime := none }] }

/-- No segments at all, one attempt. -/
def cDocNoSegs : Doc :=
  { segments := [],
    attempts := [{ id := "1", started := 0, ended := none, pauseTime := none }] }

/-- One segment and zero attempts. -/
def cDocC8 : Doc := { segments := [{ name := some "A", history := [] }], attempts := [] }

/-- Segments of the percentile scenario: three segments with one death each
out of four attempts. -/
def seg3A : Segment :=
  { id := 0, name := "A", index := 0, nextSegmentId := some 1,
    isLastSegment := false, totalDeaths := 1 }

def seg3B : Segment :=
  { id := 1, name := "B", index := 1, nextSegmentId := some 2,
    isLastSegment := false, totalDeaths := 1 }

def seg3C : Segment :=
  { id := 2, name := "C", index := 2, nextSegmentId := none,
    isLastSegment := true, totalDeaths := 1 }

/-- A result model with segments A/B/C (one death each) and four attempts:
the 50th-percentile walk must resolve to C (cumulative 3/4 > 1/2 first
at index 2). -/
def data3 : LivesplitData :=
  { segments := [seg3A, seg3B, seg3C], runs := [], runCount := 4,
    totalDuration := some 0, longestAttemptDuration := none, personalBest := none }

/-! ### Association-list lemmas -/

theorem alookup_aset_self {α β : Type} [DecidableEq α] (m : List (α × β)) (k : α) (v : β) :
    alookup (aset m k v) k = some v := by
  induction m with
  | nil => simp [aset, alookup]
  | cons p rest ih =>
    obtain ⟨pk, pv⟩ := p
    by_cases h : pk = k
    · simp [aset, h, alookup]
    · simpa [aset, h, alookup] using ih

theorem alookup_aset_ne {α β : Type} [DecidableEq α] (m : List (α × β)) (k k' : α) (v : β)
    (h : k' ≠ k) : alookup (aset m k v) k' = alookup m k' := by
  have hkk : ¬k = k' := fun e => h e.symm
  induction m with
  | nil => simp [aset, alookup, hkk]
  | cons p rest ih =>
    obtain ⟨pk, pv⟩ := p
    by_cases hk : pk = k
    · subst hk
      simp [aset, alookup, hkk]
    · simp [aset, hk, alookup, ih]

theorem alookup_eq_none_iff {α β : Type} [DecidableEq α] (m : List (α × β)) (k : α) :
    alookup m k = none ↔ k ∉ m.map Prod.fst := by
  induction m with
  | nil => simp [alookup]
  | cons p rest ih =>
    obtain ⟨pk, pv⟩ := p
    by_cases h : pk = k
    · simp [alookup, h]
    · have hne : ¬k = pk := fun e => h e.symm
      simp [alookup, h, ih, hne]

theorem map_fst_aset_of_mem {α β : Type} [DecidableEq α] (m : List (α × β)) (k : α) (v : β)
    (h : k ∈ m.map Prod.fst) : (aset m k v).map Prod.fst = m.map Prod.fst := by
  induction m with
  | nil => simp at h
  | cons p rest ih =>
    obtain ⟨pk, pv⟩ := p
    by_cases hk : pk = k
    · simp [aset, hk]
    · have hrest : k ∈ rest.map Prod.fst := by
        rcases (by simpa using h : k = pk ∨ k ∈ rest.map Prod.fst) with h1 | h1
        · exact absurd h1.symm hk
        · exact h1
      simp [aset, hk, ih hrest]

theorem mem_aset {α β : Type} [DecidableEq α] (m : List (α × β)) (k : α) (v : β) (x : α × β)
    (hx : x ∈ aset m k v) : x ∈ m ∨ x = (k, v) := by
  induction m with
  | nil => simpa [aset] using hx
  | cons p rest ih =>
    obtain ⟨pk, pv⟩ := p
    by_cases hk : pk = k
    · rcases (by simpa [aset, hk] using hx : x = (k, v) ∨ x ∈ rest) with h1 | h1
      · exact Or.inr h1
      · exact Or.inl (List.mem_cons_of_mem _ h1)
    · rcases (by simpa [aset, hk] using hx : x = (pk, pv) ∨ x ∈ aset rest k v) with h1 | h1
      · exact Or.inl (by simp [h1])
      · rcases ih h1 with h2 | h2
        · exact Or.inl (List.mem_cons_of_mem _ h2)
        · exact Or.inr h2

theorem alookup_mem {α β : Type} [DecidableEq α] (m : List (α × β)) (k : α) (v : β)
    (h : alookup m k = some v) : (k, v) ∈ m := by
  induction m with
  | nil => simp [alookup] at h
  | cons p rest ih =>
    obtain ⟨pk, pv⟩ := p
    by_cases hk : pk = k
    · have hv : pv = v := by simpa [alookup, hk] using h
      subst hk
      subst hv
      exact List.mem_cons_self _ _
    · exact List.mem_cons_of_mem _ (ih (by simpa [alookup, hk] using h))

theorem alookup_map_values {α β γ : Type} [DecidableEq α] (m : List (α × β)) (g : β → γ)
    (k : α) : alookup (m.map (fun p => (p.1, g p.2))) k = (alookup m k).map g := by
  induction m with
  | nil => simp [alookup]
  | cons p rest ih =>
    obtain ⟨pk, pv⟩ := p
    by_cases hk : pk = k
    · simp [alookup, hk]
    · simp [alookup, hk, ih]

/-! ### Enumeration and segment-graph lemmas -/

theorem mem_enumFrom {α : Type} (l : List α) (i k : ℕ) (x : α) :
    (k, x) ∈ enumFrom i l ↔ ∃ j, l[j]? = some x ∧ k = i + j := by
  induction l generalizing i with
  | nil => simp [enumFrom]
  | cons y rest ih =>
    constructor
    · intro h
      rcases (by simpa [enumFrom] using h :
          k = i ∧ x = y ∨ (k, x) ∈ enumFrom (i + 1) rest) with ⟨rfl, rfl⟩ | h1
      · exact ⟨0, by simp, by omega⟩
      · obtain ⟨j, hj, hk⟩ := (ih (i + 1)).1 h1
        exact ⟨j + 1, by simpa using hj, by omega⟩
    · rintro ⟨j, hj, hk⟩
      cases j with
      | zero =>
        have hy : y = x := by simpa using hj
        have hki : k = i := by omega
        subst hy
        subst hki
        simp [enumFrom]
      | succ j =>
        have hj2 : rest[j]? = some x := by simpa using hj
        have hmem := (ih (i + 1)).2 ⟨j, hj2, by omega⟩
        simp [enumFrom]
        exact Or.inr hmem

theorem enumFrom_fst_bound {α : Type} (l : List α) (i : ℕ) (p : ℕ × α)
    (h : p ∈ enumFrom i l) : i ≤ p.1 ∧ p.1 < i + l.length := by
  obtain ⟨k, x⟩ := p
  obtain ⟨j, hj, rfl⟩ := (mem_enumFrom l i k x).1 h
  have : j < l.length := by
    by_contra hge
    rw [List.getElem?_eq_none (by omega)] at hj
    exact Option.noConfusion hj
  omega

theorem mem_buildSegments (t : ℕ) (l : List SegmentDecl) (i : ℕ) (s : Segment) :
    s ∈ buildSegments t i l ↔ ∃ j, ∃ d, l[j]? = some d ∧ s = mkSeg t (i + j) d := by
  induction l generalizing i with
  | nil => simp [buildSegments]
  | cons y rest ih =>
    constructor
    · intro h
      rcases (by simpa [buildSegments] using h :
          s = mkSeg t i y ∨ s ∈ buildSegments t (i + 1) rest) with h1 | h1
      · exact ⟨0, y, by simp, by simpa using h1⟩
      · obtain ⟨j, d, hj, hs⟩ := (ih (i + 1)).1 h1
        exact ⟨j + 1, d, by simpa using hj, by rw [hs]; congr 1; omega⟩
    · rintro ⟨j, d, hj, rfl⟩
      cases j with
      | zero =>
        have hy : y = d := by simpa using hj
        subst hy
        simp [buildSegments]
      | succ j =>
        have hj2 : rest[j]? = some d := by simpa using hj
        have hmem := (ih (i + 1)).2 ⟨j, d, hj2, by congr 1; omega⟩
        simp [buildSegments]
        right
        convert hmem using 2

theorem buildSegments_fields (t : ℕ) (l : List SegmentDecl) (i : ℕ) (s : Segment)
    (h : s ∈ buildSegments t i l) :
    s.id = s.index ∧ s.totalDeaths = 0 ∧
    s.nextSegmentId = (if s.index + 1 < t then some (s.index + 1) else none) ∧
    s.isLastSegment = (s.index == t - 1) ∧ i ≤ s.index ∧ s.index < i + l.length := by
  obtain ⟨j, d, hj, rfl⟩ := (mem_buildSegments t l i s).1 h
  have hlt : j < l.length := by
    by_contra hge
    rw [List.getElem?_eq_none (by omega)] at hj
    exact Option.noConfusion hj
  refine ⟨rfl, rfl, by simp [mkSeg], rfl, by simp [mkSeg], by simp [mkSeg]; omega⟩

theorem buildSegments_index_inj (t : ℕ) (l : List SegmentDecl) (i : ℕ) (s s' : Segment)
    (hs : s ∈ buildSegments t i l) (hs' : s' ∈ buildSegments t i l)
    (he : s.index = s'.index) : s = s' := by
  obtain ⟨j, d, hj, rfl⟩ := (mem_buildSegments t l i s).1 hs
  obtain ⟨j', d', hj', rfl⟩ := (mem_buildSegments t l i s').1 hs'
  have hjj : j = j' := by simpa [mkSeg] using he
  subst hjj
  have hd : d = d' := by
    have := hj.symm.trans hj'
    exact Option.some.inj this
  rw [hd]

theorem buildSegments_exists_index (t : ℕ) (l : List SegmentDecl) (i j : ℕ)
    (h : j < l.length) :
    ∃ s, s ∈ buildSegments t i l ∧ s.index = i + j ∧ s.id = i + j := by
  refine ⟨mkSeg t (i + j) l[j], ?_, rfl, rfl⟩
  exact (mem_buildSegments t l i _).2 ⟨j, l[j], List.getElem?_eq_getElem h, rfl⟩

/-! ### Timestamp-parser lemmas -/

theorem parse2Digits_append_dot (cs q : List Char) :
    parse2Digits (cs ++ '.' :: q) =
      (parse2Digits cs).map (fun r => (r.1, r.2 ++ '.' :: q)) := by
  cases cs with
  | nil => rfl
  | cons c rest =>
    cases rest with
    | nil =>
      by_cases hc : c.isDigit
      · simp [parse2Digits, hc]
      · simp [parse2Digits, hc]
    | cons c2 rest2 =>
      by_cases hc : c.isDigit
      · by_cases hc2 : c2.isDigit
        · simp [parse2Digits, hc, hc2]
        · simp [parse2Digits, hc, hc2]
      · simp [parse2Digits, hc]

theorem expectCh_append_dot (ch : Char) (cs q : List Char) (h : ch ≠ '.') :
    expectCh ch (cs ++ '.' :: q) = (expectCh ch cs).map (fun r => r ++ '.' :: q) := by
  cases cs with
  | nil =>
    have h2 : ¬('.' = ch) := fun e => h e.symm
    simp [expectCh, h2]
  | cons c r =>
    by_cases hc : c = ch
    · simp [expectCh, hc]
    · simp [expectCh, hc]

theorem parseHMS_append_dot (cs q : List Char) :
    parseHMS (cs ++ '.' :: q) =
      (parseHMS cs).map (fun r => (r.1, r.2 ++ '.' :: q)) := by
  unfold parseHMS
  rw [parse2Digits_append_dot]
  cases hp1 : parse2Digits cs with
  | none => rfl
  | some p1 =>
    simp only [Option.map_some', Option.some_bind]
    rw [expectCh_append_dot _ _ _ (by decide)]
    cases he1 : expectCh ':' p1.2 with
    | none => rfl
    | some r2 =>
      simp only [Option.map_some', Option.some_bind]
      rw [parse2Digits_append_dot]
      cases hp2 : parse2Digits r2 with
      | none => rfl
      | some p2 =>
        simp only [Option.map_some', Option.some_bind]
        rw [expectCh_append_dot _ _ _ (by decide)]
        cases he2 : expectCh ':' p2.2 with
        | none => rfl
        | some r4 =>
          simp only [Option.map_some', Option.some_bind]
          rw [parse2Digits_append_dot]
          cases hp3 : parse2Digits r4 with
          | none => rfl
          | some p3 =>
            simp only [Option.map_some', Option.some_bind]
            by_cases hv : p1.1 ≤ 23 ∧ p2.1 ≤ 59 ∧ p3.1 ≤ 59
            · simp [hv]
            · simp [hv]

theorem takeDigits_append_dot (n : ℕ) (cs q : List Char) :
    takeDigits n (cs ++ '.' :: q) =
      ((takeDigits n cs).1, (takeDigits n cs).2 ++ '.' :: q) := by
  induction n generalizing cs with
  | zero => simp [takeDigits]
  | succ n ih =>
    cases cs with
    | nil => rfl
    | cons c r =>
      by_cases hc : c.isDigit
      · simp [takeDigits, hc, ih]
      · simp [takeDigits, hc]

theorem takeDigits_fst_digits (n : ℕ) (cs : List Char) :
    ∀ c ∈ (takeDigits n cs).1, c.isDigit = true := by
  induction n generalizing cs with
  | zero => simp [takeDigits]
  | succ n ih =>
    cases cs with
    | nil => simp [takeDigits]
    | cons c r =>
      by_cases hc : c.isDigit
      · intro x hx
        rcases (by simpa [takeDigits, hc] using hx : x = c ∨ x ∈ (takeDigits n r).1) with
          rfl | h2
        · exact hc
        · exact ih r x h2
      · simp [takeDigits, hc]

theorem takeDigits_decomp (n : ℕ) (cs : List Char) :
    cs = (takeDigits n cs).1 ++ (takeDigits n cs).2 := by
  induction n generalizing cs with
  | zero => simp [takeDigits]
  | succ n ih =>
    cases cs with
    | nil => simp [takeDigits]
    | cons c r =>
      by_cases hc : c.isDigit
      · simpa [takeDigits, hc] using ih r
      · simp [takeDigits, hc]

theorem expectCh_eq_some (ch : Char) (cs r : List Char) (h : expectCh ch cs = some r) :
    cs = ch :: r := by
  cases cs with
  | nil => simp [expectCh] at h
  | cons c rest =>
    by_cases hc : c = ch
    · have : rest = r := by simpa [expectCh, hc] using h
      rw [hc, this]
    · simp [expectCh, hc] at h

theorem parse2Digits_consumed (cs : List Char) (v : ℕ) (r : List Char)
    (h : parse2Digits cs = some (v, r)) :
    ∃ pre, cs = pre ++ r ∧ ∀ c ∈ pre, c.isDigit = true := by
  cases cs with
  | nil => simp [parse2Digits] at h
  | cons c rest =>
    by_cases hc : c.isDigit
    · cases rest with
      | nil =>
        obtain ⟨hv, hr⟩ : digitVal c = v ∧ [] = r := by simpa [parse2Digits, hc] using h
        exact ⟨[c], by simp [← hr], by simp [hc]⟩
      | cons c2 rest2 =>
        by_cases hc2 : c2.isDigit
        · obtain ⟨hv, hr⟩ : 10 * digitVal c + digitVal c2 = v ∧ rest2 = r := by
            simpa [parse2Digits, hc, hc2] using h
          refine ⟨[c, c2], by simp [← hr], ?_⟩
          intro x hx
          rcases (by simpa using hx : x = c ∨ x = c2) with rfl | rfl
          · exact hc
          · exact hc2
        · obtain ⟨hv, hr⟩ : digitVal c = v ∧ c2 :: rest2 = r := by
            simpa [parse2Digits, hc, hc2] using h
          exact ⟨[c], by simp [← hr], by simp [hc]⟩
    · simp [parse2Digits, hc] at h

theorem parseHMS_consumed (cs : List Char) (v : ℕ) (r : List Char)
    (h : parseHMS cs = some (v, r)) :
    ∃ pre, cs = pre ++ r ∧ ∀ c ∈ pre, c.isDigit = true ∨ c = ':' := by
  unfold parseHMS at h
  cases hp1 : parse2Digits cs with
  | none => rw [hp1] at h; simp at h
  | some p1 =>
    rw [hp1] at h
    simp only [Option.some_bind] at h
    cases he1 : expectCh ':' p1.2 with
    | none => rw [he1] at h; simp at h
    | some r2 =>
      rw [he1] at h
      simp only [Option.some_bind] at h
      cases hp2 : parse2Digits r2 with
      | none => rw [hp2] at h; simp at h
      | some p2 =>
        rw [hp2] at h
        simp only [Option.some_bind] at h
        cases he2 : expectCh ':' p2.2 with
        | none => rw [he2] at h; simp at h
        | some r4 =>
          rw [he2] at h
          simp only [Option.some_bind] at h
          cases hp3 : parse2Digits r4 with
          | none => rw [hp3] at h; simp at h
          | some p3 =>
            rw [hp3] at h
            simp only [Option.some_bind] at h
            by_cases hv : p1.1 ≤ 23 ∧ p2.1 ≤ 59 ∧ p3.1 ≤ 59
            · obtain ⟨hval, hr⟩ :
                  3600000 * p1.1 + 60000 * p2.1 + 1000 * p3.1 = v ∧ p3.2 = r := by
                simpa [hv] using h
              obtain ⟨pre1, hcs1, hd1⟩ := parse2Digits_consumed cs p1.1 p1.2 (by
                rw [hp1])
              obtain ⟨pre2, hcs2, hd2⟩ := parse2Digits_consumed r2 p2.1 p2.2 (by
                rw [hp2])
              obtain ⟨pre3, hcs3, hd3⟩ := parse2Digits_consumed r4 p3.1 p3.2 (by
                rw [hp3])
              have hr1 : p1.2 = ':' :: r2 := expectCh_eq_some ':' p1.2 r2 he1
              have hr3 : p2.2 = ':' :: r4 := expectCh_eq_some ':' p2.2 r4 he2
              refine ⟨pre1 ++ ':' :: pre2 ++ ':' :: pre3, ?_, ?_⟩
              · rw [hcs1, hr1, hcs2, hr3, hcs3, hr]
                simp
              · intro x hx
                rcases (by simpa using hx :
                    x ∈ pre1 ∨ x = ':' ∨ x ∈ pre2 ∨ x = ':' ∨ x ∈ pre3) with
                  h1 | h1 | h1 | h1 | h1
                · exact Or.inl (hd1 x h1)
                · exact Or.inr h1
                · exact Or.inl (hd2 x h1)
                · exact Or.inr h1
                · exact Or.inl (hd3 x h1)
            · rw [if_neg hv] at h
              simp at h

theorem parseHMS_dot_in_rest (cs : List Char) (v : ℕ) (r : List Char)
    (h : parseHMS cs = some (v, r)) (hd : '.' ∈ cs) : '.' ∈ r := by
  obtain ⟨pre, hcs, hmem⟩ := parseHMS_consumed cs v r h
  rw [hcs] at hd
  rcases List.mem_append.1 hd with h1 | h1
  · rcases hmem '.' h1 with h2 | h2
    · exact absurd h2 (by decide)
    · exact absurd h2 (by decide)
  · exact h1

theorem takeWhile_append_all {p : Char → Bool} (a b : List Char)
    (ha : ∀ c ∈ a, p c = true) (hb : ∀ c, b.head? = some c → p c = false) :
    (a ++ b).takeWhile p = a ∧ (a ++ b).dropWhile p = b := by
  induction a with
  | nil =>
    cases b with
    | nil => simp
    | cons c bs =>
      have hc : p c = false := hb c rfl
      simp [List.takeWhile_cons, List.dropWhile_cons, hc]
  | cons c as ih =>
    have hc : p c = true := ha c (by simp)
    have ih2 := ih (fun x hx => ha x (by simp [hx]))
    simp [List.takeWhile_cons, List.dropWhile_cons, hc, ih2.1, ih2.2]

theorem hasFracSuffix_true_of (pre ds : List Char) (hne : ds ≠ [])
    (hd : ∀ c ∈ ds, c.isDigit = true) :
    hasFracSuffix (pre ++ '.' :: ds) = true := by
  unfold hasFracSuffix
  have hrev : (pre ++ '.' :: ds).reverse = ds.reverse ++ '.' :: pre.reverse := by
    simp
  rw [hrev]
  have htw := takeWhile_append_all ds.reverse ('.' :: pre.reverse)
    (fun c hc => hd c (List.mem_reverse.1 hc))
    (fun c hc => by
      have h4 : '.' = c := by simpa using hc
      rw [← h4]
      decide)
  rw [htw.1, htw.2]
  simp [hne]

theorem mem_of_dropWhile_headq {p : Char → Bool} (l : List Char) (c : Char)
    (h : (l.dropWhile p).head? = some c) : c ∈ l := by
  induction l with
  | nil => simp [List.dropWhile] at h
  | cons a r ih =>
    by_cases ha : p a
    · rw [List.dropWhile_cons, if_pos ha] at h
      exact List.mem_cons_of_mem _ (ih h)
    · rw [List.dropWhile_cons, if_neg ha] at h
      have : a = c := by simpa using h
      subst this
      exact List.mem_cons_self _ _

theorem dot_mem_of_hasFracSuffix (cs : List Char) (h : hasFracSuffix cs = true) :
    '.' ∈ cs := by
  unfold hasFracSuffix at h
  have h2 : ((cs.reverse.dropWhile Char.isDigit).head? == some '.') = true := by
    cases hx : ((cs.reverse.takeWhile Char.isDigit).isEmpty) with
    | true => rw [hx] at h; simp at h
    | false => rw [hx] at h; simpa using h
  have h3 : (cs.reverse.dropWhile Char.isDigit).head? = some '.' := by
    simpa using h2
  exact List.mem_reverse.1 (mem_of_dropWhile_headq cs.reverse '.' h3)

theorem expectCh_self (ch : Char) (r : List Char) : expectCh ch (ch :: r) = some r := by
  simp [expectCh]

theorem specClockPattern_eq_padded (cs : List Char) :
    specClockPattern cs = dateFnsClock (padFrac cs) := by
  by_cases hf : hasFracSuffix cs = true
  · have hpad : padFrac cs = cs := by simp [padFrac, hf]
    rw [hpad]
    unfold specClockPattern dateFnsClock
    cases hp : parseHMS cs with
    | none => rfl
    | some br =>
      obtain ⟨base, r⟩ := br
      simp only [Option.some_bind]
      cases r with
      | nil =>
        exfalso
        have hdot := dot_mem_of_hasFracSuffix cs hf
        have hrest := parseHMS_dot_in_rest cs base [] hp hdot
        simp at hrest
      | cons c r2 =>
        rw [if_neg (by simp : ¬(c :: r2 : List Char) = [])]
  · have hpad : padFrac cs = cs ++ '.' :: List.replicate 7 '0' := by
      simp [padFrac, hf]
    rw [hpad]
    unfold specClockPattern dateFnsClock
    rw [parseHMS_append_dot]
    cases hp : parseHMS cs with
    | none => rfl
    | some br =>
      obtain ⟨base, r⟩ := br
      simp only [Option.map_some', Option.some_bind]
      cases r with
      | nil =>
        rw [if_pos rfl]
        have hed : expectCh '.' (([] : List Char) ++ '.' :: List.replicate 7 '0') =
            some (List.replicate 7 '0') := rfl
        rw [hed]
        simp only [Option.some_bind]
        have ht : takeDigits 7 (List.replicate 7 '0') = (List.replicate 7 '0', []) := by
          decide
        rw [ht]
        have hd0 : digitsVal ['0', '0', '0', '0', '0', '0', '0'] = 0 := by decide
        simp [hd0]
      | cons c r2 =>
        rw [if_neg (by simp : ¬(c :: r2 : List Char) = [])]
        by_cases hc : c = '.'
        · subst hc
          rw [expectCh_self]
          have hed : expectCh '.' (('.' :: r2 : List Char) ++ '.' :: List.replicate 7 '0') =
              some (r2 ++ '.' :: List.replicate 7 '0') := by
            rw [List.cons_append, expectCh_self]
          rw [hed]
          simp only [Option.some_bind]
          rw [takeDigits_append_dot]
          by_cases h1 : ((takeDigits 7 r2).1).isEmpty = true
          · rw [if_pos h1, if_pos h1]
          · rw [if_neg h1, if_neg h1]
            have h2 : (takeDigits 7 r2).2 ≠ [] := by
              intro hnil
              have hr2 : r2 = (takeDigits 7 r2).1 := by
                have hdec := takeDigits_decomp 7 r2
                rw [hnil, List.append_nil] at hdec
                exact hdec
              obtain ⟨pre, hcs, _⟩ := parseHMS_consumed cs base ('.' :: r2) hp
              have hT1 : (takeDigits 7 r2).1 ≠ [] := by
                intro he
                rw [he] at h1
                simp at h1
              have hfs : hasFracSuffix cs = true := by
                rw [hcs, hr2]
                exact hasFracSuffix_true_of pre _ hT1 (takeDigits_fst_digits 7 r2)
              exact hf hfs
            rw [if_neg (by simp [h2] : ¬((takeDigits 7 r2).2.isEmpty = true))]
            rw [if_neg
              (by simp : ¬(((takeDigits 7 r2).2 ++ '.' :: List.replicate 7 '0').isEmpty = true))]
        · have hL : expectCh '.' (c :: r2) = none := by simp [expectCh, hc]
          have hR : expectCh '.' ((c :: r2 : List Char) ++ '.' :: List.replicate 7 '0') = none := by
            rw [List.cons_append]
            simp [expectCh, hc]
          rw [hL, hR]

theorem parseTimestamp_eq_spec (s : String) :
    parseTimestamp s = (specClockPattern (stripDays (trimChars s.toList)).2).map
      (fun (off : ℕ) =>
        ((stripDays (trimChars s.toList)).1 : Int) * 86400000 + (off : Int)) := by
  unfold parseTimestamp
  rw [specClockPattern_eq_padded]

/-! ### Correlator lemmas -/

theorem applyEntry_none (sid : ℕ) (acc : List (String × Run)) (e : TimeEntry)
    (h : alookup acc e.runId = none) : applyEntry sid acc e = acc := by
  unfold applyEntry
  rw [h]

theorem applyEntry_some (sid : ℕ) (acc : List (String × Run)) (e : TimeEntry) (run : Run)
    (h : alookup acc e.runId = some run) :
    applyEntry sid acc e =
      aset acc e.runId
        { run with segmentTimes := aset run.segmentTimes sid (entryValue e) } := by
  unfold applyEntry
  rw [h]

theorem map_fst_applyEntry (sid : ℕ) (acc : List (String × Run)) (e : TimeEntry) :
    (applyEntry sid acc e).map Prod.fst = acc.map Prod.fst := by
  cases h : alookup acc e.runId with
  | none => rw [applyEntry_none sid acc e h]
  | some run =>
    rw [applyEntry_some sid acc e run h]
    exact map_fst_aset_of_mem acc e.runId _
      (List.mem_map.2 ⟨(e.runId, run), alookup_mem _ _ _ h, rfl⟩)

theorem alookup_applyEntry_none (sid : ℕ) (acc : List (String × Run)) (e : TimeEntry)
    (rid : String) (h : alookup acc rid = none) :
    alookup (applyEntry sid acc e) rid = none := by
  cases hx : alookup acc e.runId with
  | none => rw [applyEntry_none sid acc e hx]; exact h
  | some run =>
    rw [applyEntry_some sid acc e run hx]
    have hne : rid ≠ e.runId := by
      intro hcontra
      rw [hcontra, hx] at h
      exact Option.noConfusion h
    rw [alookup_aset_ne _ _ _ _ hne]
    exact h

theorem map_fst_innerFold (sid : ℕ) (es : List TimeEntry) (acc : List (String × Run)) :
    ((es.foldl (applyEntry sid) acc).map Prod.fst) = acc.map Prod.fst := by
  induction es generalizing acc with
  | nil => rfl
  | cons e es ih =>
    rw [List.foldl_cons, ih, map_fst_applyEntry]

theorem getLastq_cons_eq {α : Type} (a : α) (l : List α) :
    (a :: l).getLast? = some (l.getLast?.getD a) := by
  induction l generalizing a with
  | nil => rfl
  | cons b t ih =>
    rw [List.getLast?_cons_cons, ih b]
    simp

theorem lastEntryFor_cons_pos (e : TimeEntry) (es : List TimeEntry) (rid : String)
    (he : e.runId = rid) :
    lastEntryFor (e :: es) rid = some ((lastEntryFor es rid).getD e) := by
  unfold lastEntryFor
  rw [List.filter_cons, if_pos (by simp [he]), getLastq_cons_eq]

theorem lastEntryFor_cons_neg (e : TimeEntry) (es : List TimeEntry) (rid : String)
    (he : ¬e.runId = rid) :
    lastEntryFor (e :: es) rid = lastEntryFor es rid := by
  unfold lastEntryFor
  rw [List.filter_cons, if_neg (by simp [he])]

theorem innerFold_lookup (sid : ℕ) (es : List TimeEntry) (acc : List (String × Run))
    (rid : String) :
    (alookup acc rid = none → alookup (es.foldl (applyEntry sid) acc) rid = none) ∧
    (∀ run, alookup acc rid = some run →
      ∃ rn, alookup (es.foldl (applyEntry sid) acc) rid = some rn ∧
        rn.id = run.id ∧ rn.totalDuration = run.totalDuration ∧
        rn.lastRecordedSegment = run.lastRecordedSegment ∧
        rn.deathSegment = run.deathSegment ∧ rn.isComplete = run.isComplete ∧
        (∀ j, ¬j = sid → alookup rn.segmentTimes j = alookup run.segmentTimes j) ∧
        alookup rn.segmentTimes sid =
          (match lastEntryFor es rid with
           | some e => some (entryValue e)
           | none => alookup run.segmentTimes sid)) := by
  induction es generalizing acc with
  | nil =>
    refine ⟨fun h => h, fun run h => ⟨run, h, rfl, rfl, rfl, rfl, rfl, fun j _ => rfl, ?_⟩⟩
    simp [lastEntryFor]
  | cons e es ih =>
    constructor
    · intro h
      rw [List.foldl_cons]
      exact (ih (applyEntry sid acc e)).1 (alookup_applyEntry_none sid acc e rid h)
    · intro run h
      rw [List.foldl_cons]
      by_cases he : e.runId = rid
      · have hs : alookup acc e.runId = some run := by rw [he]; exact h
        rw [applyEntry_some sid acc e run hs]
        have h2 : alookup
            (aset acc e.runId
              { run with segmentTimes := aset run.segmentTimes sid (entryValue e) }) rid =
            some { run with segmentTimes := aset run.segmentTimes sid (entryValue e) } := by
          rw [← he]
          exact alookup_aset_self _ _ _
        obtain ⟨rn, hrn, hid, hdur, hlast, hdeath, hcomp, hother, hsid⟩ :=
          (ih _).2 _ h2
        refine ⟨rn, hrn, hid, hdur, hlast, hdeath, hcomp, ?_, ?_⟩
        · intro j hj
          rw [hother j hj]
          exact alookup_aset_ne _ _ _ _ hj
        · rw [lastEntryFor_cons_pos e es rid he]
          cases hle : lastEntryFor es rid with
          | none =>
            rw [hle] at hsid
            rw [hsid]
            simp [alookup_aset_self]
          | some x =>
            rw [hle] at hsid
            rw [hsid]
            simp
      · have hpres : alookup (applyEntry sid acc e) rid = some run := by
          cases hx : alookup acc e.runId with
          | none => rw [applyEntry_none sid acc e hx]; exact h
          | some r2 =>
            rw [applyEntry_some sid acc e r2 hx]
            rw [alookup_aset_ne _ _ _ _ (fun hcontra => he hcontra.symm)]
            exact h
        obtain ⟨rn, hrn, hid, hdur, hlast, hdeath, hcomp, hother, hsid⟩ :=
          (ih _).2 _ hpres
        rw [lastEntryFor_cons_neg e es rid he]
        exact ⟨rn, hrn, hid, hdur, hlast, hdeath, hcomp, hother, hsid⟩

theorem map_fst_enumFrom {α : Type} (l : List α) (i : ℕ) :
    (enumFrom i l).map Prod.fst = List.range' i l.length := by
  induction l generalizing i with
  | nil => rfl
  | cons x rest ih => simp [enumFrom, ih, List.range'_succ]

theorem outerFold_lookup (rid : String) :
    ∀ (ps : List (ℕ × SegmentDecl)) (acc : List (String × Run)) (run : Run),
      (ps.map Prod.fst).Nodup → alookup acc rid = some run →
      ∃ rn,
        alookup (ps.foldl (fun a p => p.2.history.foldl (applyEntry p.1) a) acc) rid =
          some rn ∧
        rn.id = run.id ∧ rn.totalDuration = run.totalDuration ∧
        rn.lastRecordedSegment = run.lastRecordedSegment ∧
        rn.deathSegment = run.deathSegment ∧ rn.isComplete = run.isComplete ∧
        (∀ sid d, (sid, d) ∈ ps →
          alookup rn.segmentTimes sid =
            (match lastEntryFor d.history rid with
             | some e => some (entryValue e)
             | none => alookup run.segmentTimes sid)) ∧
        (∀ j, (∀ d, (j, d) ∉ ps) →
          alookup rn.segmentTimes j = alookup run.segmentTimes j) := by
  intro ps
  induction ps with
  | nil =>
    intro acc run _ h
    exact ⟨run, h, rfl, rfl, rfl, rfl, rfl, by simp, fun j _ => rfl⟩
  | cons p rest ih =>
    intro acc run hnd h
    obtain ⟨sid0, d0⟩ := p
    rw [List.foldl_cons]
    obtain ⟨r1, hr1, hid1, hdur1, hlast1, hdeath1, hcomp1, hother1, hsid1⟩ :=
      (innerFold_lookup sid0 d0.history acc rid).2 run h
    have hnd2 : (sid0 :: rest.map Prod.fst).Nodup := by simpa using hnd
    have hndc := List.nodup_cons.1 hnd2
    obtain ⟨rn, hrn, hid, hdur, hlast, hdeath, hcomp, hin, hout⟩ :=
      ih _ r1 hndc.2 hr1
    refine ⟨rn, hrn, hid.trans hid1, hdur.trans hdur1, hlast.trans hlast1,
      hdeath.trans hdeath1, hcomp.trans hcomp1, ?_, ?_⟩
    · intro sid d hmem
      rcases List.mem_cons.1 hmem with heq | hmem2
      · injection heq with h1 h2
        rw [h1, h2]
        have hnot : ∀ dd, (sid0, dd) ∉ rest := by
          intro dd hmm
          exact hndc.1 (List.mem_map.2 ⟨(sid0, dd), hmm, rfl⟩)
        rw [hout sid0 hnot]
        rw [hsid1]
      · have hsidne : ¬sid = sid0 := by
          intro hcontra
          subst hcontra
          exact hndc.1 (List.mem_map.2 ⟨(sid, d), hmem2, rfl⟩)
        rw [hin sid d hmem2]
        cases hle : lastEntryFor d.history rid with
        | some x => rfl
        | none => exact hother1 sid hsidne
    · intro j hj
      have hj0 : ¬j = sid0 := by
        intro hcontra
        subst hcontra
        exact hj d0 (List.mem_cons_self _ _)
      have hjrest : ∀ d, (j, d) ∉ rest := fun d hmm => hj d (List.mem_cons_of_mem _ hmm)
      rw [hout j hjrest, hother1 j hj0]

/-! ### Attempt-record and correlate-level lemmas -/

theorem foldl_aset_mem (attempts : List AttemptDecl) :
    ∀ (acc : List (String × Run)),
      (∀ q ∈ acc, ∃ a : AttemptDecl, q = (a.id, initRun a)) →
      ∀ q ∈ attempts.foldl (fun acc a => aset acc a.id (initRun a)) acc,
        ∃ a : AttemptDecl, q = (a.id, initRun a) := by
  induction attempts with
  | nil => exact fun acc hacc q hq => hacc q hq
  | cons a rest ih =>
    intro acc hacc q hq
    rw [List.foldl_cons] at hq
    refine ih _ ?_ q hq
    intro q2 hq2
    rcases mem_aset _ _ _ _ hq2 with h2 | h2
    · exact hacc q2 h2
    · exact ⟨a, h2⟩

theorem runData_lookup (attempts : List AttemptDecl) (rid : String) (run : Run)
    (h : alookup (runDataFromAttempts attempts) rid = some run) :
    run.segmentTimes = [] ∧ run.id = rid ∧ run.lastRecordedSegment = none ∧
      run.deathSegment = none ∧ run.isComplete = false := by
  have hmem := alookup_mem _ _ _ h
  obtain ⟨a, ha⟩ := foldl_aset_mem attempts [] (by simp) _ hmem
  injection ha with ha1 ha2
  subst ha2
  exact ⟨rfl, ha1.symm, rfl, rfl, rfl⟩

theorem map_fst_outerFold (ps : List (ℕ × SegmentDecl)) (acc : List (String × Run)) :
    (ps.foldl (fun a p => p.2.history.foldl (applyEntry p.1) a) acc).map Prod.fst =
      acc.map Prod.fst := by
  induction ps generalizing acc with
  | nil => rfl
  | cons p rest ih => rw [List.foldl_cons, ih, map_fst_innerFold]

theorem map_fst_correlate (decls : List SegmentDecl) (base : List (String × Run)) :
    (correlate decls base).map Prod.fst = base.map Prod.fst := by
  unfold correlate
  exact map_fst_outerFold _ _

theorem correlate_lookup_none (decls : List SegmentDecl) (base : List (String × Run))
    (rid : String) (h : alookup base rid = none) :
    alookup (correlate decls base) rid = none := by
  rw [alookup_eq_none_iff] at h ⊢
  rw [map_fst_correlate]
  exact h

theorem correlate_found (doc : Doc) (rid : String) (run0 : Run)
    (h : alookup (runDataFromAttempts doc.attempts) rid = some run0) :
    ∃ rn,
      alookup (correlate doc.segments (runDataFromAttempts doc.attempts)) rid = some rn ∧
      rn.id = run0.id ∧ rn.totalDuration = run0.totalDuration ∧
      rn.lastRecordedSegment = none ∧ rn.deathSegment = none ∧ rn.isComplete = false ∧
      (∀ sid d, (sid, d) ∈ enumFrom 0 doc.segments →
        alookup rn.segmentTimes sid = (lastEntryFor d.history rid).map entryValue) ∧
      (∀ j, (∀ d, (j, d) ∉ enumFrom 0 doc.segments) → alookup rn.segmentTimes j = none) := by
  have hbase := runData_lookup doc.attempts rid run0 h
  have hnd : ((enumFrom 0 doc.segments).map Prod.fst).Nodup := by
    rw [map_fst_enumFrom]
    exact List.nodup_range' _ _
  obtain ⟨rn, hrn, hid, hdur, hlast, hdeath, hcomp, hin, hout⟩ :=
    outerFold_lookup rid (enumFrom 0 doc.segments) (runDataFromAttempts doc.attempts) run0
      hnd h
  refine ⟨rn, hrn, hid, hdur, hlast.trans hbase.2.2.1, hdeath.trans hbase.2.2.2.1,
    hcomp.trans hbase.2.2.2.2, ?_, ?_⟩
  · intro sid d hmem
    rw [hin sid d hmem]
    cases hle : lastEntryFor d.history rid with
    | some e => rfl
    | none =>
      rw [hbase.1]
      rfl
  · intro j hj
    rw [hout j hj, hbase.1]
    rfl

theorem correlate_times_keys_lt (doc : Doc) (rid : String) (rn : Run)
    (h : alookup (correlate doc.segments (runDataFromAttempts doc.attempts)) rid = some rn) :
    ∀ k ∈ rn.segmentTimes.map Prod.fst, k < doc.segments.length := by
  intro k hk
  cases hb : alookup (runDataFromAttempts doc.attempts) rid with
  | none =>
    rw [correlate_lookup_none _ _ _ hb] at h
    exact Option.noConfusion h
  | some run0 =>
    obtain ⟨rn2, hrn2, _, _, _, _, _, _, hout⟩ := correlate_found doc rid run0 hb
    have hrr : rn2 = rn := Option.some.inj (hrn2.symm.trans h)
    subst hrr
    by_contra hge
    have hnone : alookup rn2.segmentTimes k = none := by
      refine hout k ?_
      intro d hmm
      have := enumFrom_fst_bound doc.segments 0 (k, d) hmm
      simp at this
      omega
    rw [alookup_eq_none_iff] at hnone
    exact hnone hk

/-! ### Segment lookup and metadata lemmas -/

theorem lookupSeg_mem (sbid : List Segment) (k : ℕ) (s : Segment)
    (h : lookupSeg sbid k = some s) : s ∈ sbid ∧ s.id = k := by
  refine ⟨List.mem_of_find?_eq_some h, ?_⟩
  have hp := List.find?_some h
  simpa using hp

theorem lookupSeg_assign_lt (decls : List SegmentDecl) (k : ℕ) (hk : k < decls.length) :
    ∃ s, lookupSeg (assignIDsToSegments decls) k = some s ∧ s.index = k ∧ s.id = k := by
  obtain ⟨s0, hs0, hidx, hid⟩ := buildSegments_exists_index decls.length decls 0 k hk
  cases hf : lookupSeg (assignIDsToSegments decls) k with
  | none =>
    exfalso
    have := List.find?_eq_none.1 hf s0 hs0
    simp [hid] at this
  | some s =>
    have hm := lookupSeg_mem _ _ _ hf
    have hfields := buildSegments_fields decls.length decls 0 s hm.1
    exact ⟨s, rfl, by rw [← hfields.1, hm.2], hm.2⟩

theorem segIdx_assign_lt (decls : List SegmentDecl) (k : ℕ) (hk : k < decls.length) :
    segIdx (assignIDsToSegments decls) k = (k : Int) := by
  obtain ⟨s, hs, hidx, _⟩ := lookupSeg_assign_lt decls k hk
  unfold segIdx
  rw [hs]
  show (s.index : Int) = (k : Int)
  rw [hidx]

theorem foldl_max_facts (f : ℕ → Int) (keys : List ℕ) (init : Int) :
    init ≤ keys.foldl (fun acc k => max (f k) acc) init ∧
    (∀ k ∈ keys, f k ≤ keys.foldl (fun acc k => max (f k) acc) init) ∧
    (keys.foldl (fun acc k => max (f k) acc) init = init ∨
      ∃ k ∈ keys, keys.foldl (fun acc k => max (f k) acc) init = f k) := by
  induction keys generalizing init with
  | nil => exact ⟨le_refl _, by simp, Or.inl rfl⟩
  | cons k ks ih =>
    obtain ⟨ha, hb, hc⟩ := ih (max (f k) init)
    simp only [List.foldl_cons]
    refine ⟨le_trans (le_max_right _ _) ha, ?_, ?_⟩
    · intro k2 hk2
      rcases List.mem_cons.1 hk2 with rfl | h2
      · exact le_trans (le_max_left _ _) ha
      · exact hb k2 h2
    · rcases hc with h1 | ⟨k2, hk2, h2⟩
      · rcases max_choice (f k) init with h3 | h3
        · exact Or.inr ⟨k, List.mem_cons_self _ _, by rw [h1, h3]⟩
        · exact Or.inl (by rw [h1, h3])
      · exact Or.inr ⟨k2, List.mem_cons_of_mem _ hk2, h2⟩

theorem find_index_assign (decls : List SegmentDecl) (j : ℕ) (hj : j < decls.length) :
    ∃ s, (assignIDsToSegments decls).find? (fun s => (s.index : Int) == ((j : ℕ) : Int)) =
        some s ∧ s ∈ assignIDsToSegments decls ∧ s.index = j := by
  obtain ⟨s0, hs0, hidx, hid⟩ := buildSegments_exists_index decls.length decls 0 j hj
  cases hf : (assignIDsToSegments decls).find? (fun s => (s.index : Int) == ((j : ℕ) : Int))
    with
  | none =>
    exfalso
    have := List.find?_eq_none.1 hf s0 hs0
    simp [hidx] at this
  | some s =>
    have hmem := List.mem_of_find?_eq_some hf
    have hps := List.find?_some hf
    have : (s.index : Int) = (j : Int) := by simpa using hps
    exact ⟨s, rfl, hmem, by exact_mod_cast this⟩

theorem find_index_neg_one (decls : List SegmentDecl) :
    (assignIDsToSegments decls).find? (fun s => (s.index : Int) == (-1 : Int)) = none := by
  rw [List.find?_eq_none]
  intro s _
  simp

theorem metaRun_preserves (sbid : List Segment) (firstSeg : Option Segment) (run : Run) :
    (metaRun sbid firstSeg run).segmentTimes = run.segmentTimes ∧
    (metaRun sbid firstSeg run).id = run.id ∧
    (metaRun sbid firstSeg run).totalDuration = run.totalDuration := by
  unfold metaRun
  exact ⟨rfl, rfl, rfl⟩

theorem metaRun_no_times (decls : List SegmentDecl) (firstSeg : Option Segment) (run : Run)
    (h : run.segmentTimes = []) :
    (metaRun (assignIDsToSegments decls) firstSeg run).lastRecordedSegment = none ∧
    (metaRun (assignIDsToSegments decls) firstSeg run).isComplete = false ∧
    (metaRun (assignIDsToSegments decls) firstSeg run).deathSegment = firstSeg := by
  simp only [metaRun, h, List.map_nil, List.foldl_nil]
  rw [find_index_neg_one]
  simp

theorem metaRun_with_times (decls : List SegmentDecl) (firstSeg : Option Segment) (run : Run)
    (hne : ¬run.segmentTimes = [])
    (hkeys : ∀ k ∈ run.segmentTimes.map Prod.fst, k < decls.length) :
    ∃ s, s ∈ assignIDsToSegments decls ∧
      (metaRun (assignIDsToSegments decls) firstSeg run).lastRecordedSegment = some s ∧
      s.id ∈ run.segmentTimes.map Prod.fst ∧
      (∀ k ∈ run.segmentTimes.map Prod.fst, k ≤ s.index) ∧
      (metaRun (assignIDsToSegments decls) firstSeg run).isComplete = s.isLastSegment ∧
      (metaRun (assignIDsToSegments decls) firstSeg run).deathSegment =
        s.nextSegmentId.bind (lookupSeg (assignIDsToSegments decls)) := by
  have hkeysne : run.segmentTimes.map Prod.fst ≠ [] := by simpa using hne
  obtain ⟨hinit, hub, hcase⟩ :=
    foldl_max_facts (segIdx (assignIDsToSegments decls)) (run.segmentTimes.map Prod.fst) (-1)
  obtain ⟨k0, hk0⟩ : ∃ k, k ∈ run.segmentTimes.map Prod.fst := by
    cases hx : run.segmentTimes.map Prod.fst with
    | nil => exact absurd hx hkeysne
    | cons a l => exact ⟨a, List.mem_cons_self _ _⟩
  obtain ⟨kstar, hkstar, hLk⟩ :
      ∃ kstar ∈ run.segmentTimes.map Prod.fst,
        (run.segmentTimes.map Prod.fst).foldl
          (fun acc k => max (segIdx (assignIDsToSegments decls) k) acc) (-1) =
          ((kstar : ℕ) : Int) := by
    rcases hcase with h1 | ⟨k2, hk2, h2⟩
    · exfalso
      have h3 := hub k0 hk0
      rw [h1, segIdx_assign_lt decls k0 (hkeys k0 hk0)] at h3
      omega
    · exact ⟨k2, hk2, by rw [h2, segIdx_assign_lt decls k2 (hkeys k2 hk2)]⟩
  obtain ⟨s, hfind, hmem, hidx⟩ := find_index_assign decls kstar (hkeys kstar hkstar)
  have hfields := buildSegments_fields decls.length decls 0 s hmem
  have hEmpty : run.segmentTimes.isEmpty = false := by
    cases hx : run.segmentTimes with
    | nil => exact absurd hx hne
    | cons a l => rfl
  refine ⟨s, hmem, ?_, ?_, ?_, ?_, ?_⟩
  · simp only [metaRun]
    rw [hLk, hfind]
  · rw [hfields.1, hidx]
    exact hkstar
  · intro k hk
    have h3 := hub k hk
    rw [hLk, segIdx_assign_lt decls k (hkeys k hk)] at h3
    rw [hidx]
    exact_mod_cast h3
  · simp only [metaRun]
    rw [hLk, hfind]
    simp
  · simp only [metaRun]
    rw [hLk, hfind]
    simp [hEmpty]

theorem seg_last_iff_next_none (decls : List SegmentDecl) (s : Segment)
    (hs : s ∈ assignIDsToSegments decls) :
    s.isLastSegment = true ↔ s.nextSegmentId = none := by
  have hfields := buildSegments_fields decls.length decls 0 s hs
  obtain ⟨hid, hdeaths, hnext, hlast, hge, hlt⟩ := hfields
  constructor
  · intro h
    rw [h] at hlast
    have hidx : s.index = decls.length - 1 := by
      have := hlast.symm
      simpa using this
    rw [hnext, if_neg (by omega)]
  · intro h
    rw [hnext] at h
    by_cases hc : s.index + 1 < decls.length
    · rw [if_pos hc] at h
      exact Option.noConfusion h
    · have hidx : s.index = decls.length - 1 := by
        simp at hlt
        omega
      rw [hlast]
      simp [hidx]

theorem firstSeg_assign (decls : List SegmentDecl) (hne : decls ≠ []) :
    ∃ s, (assignIDsToSegments decls).find? (fun s => s.index == 0) = some s ∧
      s ∈ assignIDsToSegments decls ∧ s.index = 0 ∧ s.id = 0 := by
  have hlen : 0 < decls.length := List.length_pos.2 hne
  obtain ⟨s0, hs0, hidx, hid⟩ := buildSegments_exists_index decls.length decls 0 0 hlen
  cases hf : (assignIDsToSegments decls).find? (fun s => s.index == 0) with
  | none =>
    exfalso
    have := List.find?_eq_none.1 hf s0 hs0
    simp [hidx] at this
  | some s =>
    have hmem := List.mem_of_find?_eq_some hf
    have hps := List.find?_some hf
    have hidx2 : s.index = 0 := by simpa using hps
    have hfields := buildSegments_fields decls.length decls 0 s hmem
    exact ⟨s, rfl, hmem, hidx2, by rw [hfields.1, hidx2]⟩

theorem firstSeg_nil : (assignIDsToSegments []).find? (fun s => s.index == 0) = none := rfl

/-! ### Result-model run lemmas -/

theorem parse_runs_def (doc : Doc) :
    (parseLivesplitDocument doc).runs =
      runsWithMetadata (assignIDsToSegments doc.segments)
        (correlate doc.segments (runDataFromAttempts doc.attempts)) := rfl

theorem parse_segments_def (doc : Doc) :
    (parseLivesplitDocument doc).segments =
      segmentsWithMetadata (assignIDsToSegments doc.segments)
        (runsWithMetadata (assignIDsToSegments doc.segments)
          (correlate doc.segments (runDataFromAttempts doc.attempts))) := rfl

theorem parse_runCount_def (doc : Doc) :
    (parseLivesplitDocument doc).runCount = (parseLivesplitDocument doc).runs.length := by
  have h : (parseLivesplitDocument doc).runCount =
      ((parseLivesplitDocument doc).runs.map Prod.snd).length := rfl
  rw [h, List.length_map]

theorem runsWithMetadata_alookup (sbid : List Segment) (runs : List (String × Run))
    (rid : String) :
    alookup (runsWithMetadata sbid runs) rid =
      (alookup runs rid).map
        (metaRun sbid (sbid.find? (fun s => s.index == 0))) := by
  unfold runsWithMetadata
  exact alookup_map_values runs _ rid

theorem parse_run_exists (doc : Doc) (rid : String) (run : Run)
    (h : alookup (parseLivesplitDocument doc).runs rid = some run) :
    ∃ rc,
      alookup (correlate doc.segments (runDataFromAttempts doc.attempts)) rid = some rc ∧
      run = metaRun (assignIDsToSegments doc.segments)
        ((assignIDsToSegments doc.segments).find? (fun s => s.index == 0)) rc := by
  rw [parse_runs_def, runsWithMetadata_alookup] at h
  cases hc : alookup (correlate doc.segments (runDataFromAttempts doc.attempts)) rid with
  | none => rw [hc] at h; exact Option.noConfusion h
  | some rc =>
    rw [hc] at h
    exact ⟨rc, rfl, (Option.some.inj h).symm⟩

theorem parse_run_meta (doc : Doc) (rid : String) (run : Run) (hne : doc.segments ≠ [])
    (h : alookup (parseLivesplitDocument doc).runs rid = some run) :
    (run.isComplete = true → run.deathSegment = none) ∧
    (run.isComplete = false →
      ∃ s, run.deathSegment = some s ∧ s ∈ assignIDsToSegments doc.segments) := by
  obtain ⟨rc, hrc, hrun⟩ := parse_run_exists doc rid run h
  subst hrun
  by_cases hempty : rc.segmentTimes = []
  · obtain ⟨hl, hcmp, hd⟩ := metaRun_no_times doc.segments _ rc hempty
    obtain ⟨sf, hsf, hsfmem, _, _⟩ := firstSeg_assign doc.segments hne
    constructor
    · intro hc
      rw [hcmp] at hc
      exact absurd hc (by simp)
    · intro _
      exact ⟨sf, by rw [hd, hsf], hsfmem⟩
  · have hkeys := correlate_times_keys_lt doc rid rc hrc
    obtain ⟨s, hsmem, hlast, hsid, hmax, hcomp, hdeath⟩ :=
      metaRun_with_times doc.segments _ rc hempty hkeys
    have hfields := buildSegments_fields doc.segments.length doc.segments 0 s hsmem
    constructor
    · intro hc
      rw [hcomp] at hc
      have hnext := (seg_last_iff_next_none doc.segments s hsmem).1 hc
      rw [hdeath, hnext]
      rfl
    · intro hc
      rw [hcomp] at hc
      have hidxlt : s.index < doc.segments.length := by
        have := hfields.2.2.2.2.2
        omega
      have hnotlast : ¬s.index = doc.segments.length - 1 := by
        intro hcontra
        have : s.isLastSegment = true := by rw [hfields.2.2.2.1]; simp [hcontra]
        rw [hc] at this
        exact Bool.noConfusion this
      have hnextsome : s.nextSegmentId = some (s.index + 1) := by
        rw [hfields.2.2.1, if_pos (by omega)]
      obtain ⟨s2, hs2, _, _⟩ := lookupSeg_assign_lt doc.segments (s.index + 1) (by omega)
      refine ⟨s2, ?_, (lookupSeg_mem _ _ _ hs2).1⟩
      rw [hdeath, hnextsome]
      simpa using hs2

theorem parse_run_death_mem (doc : Doc) (rid : String) (run : Run) (s : Segment)
    (h : alookup (parseLivesplitDocument doc).runs rid = some run)
    (hd : run.deathSegment = some s) : s ∈ assignIDsToSegments doc.segments := by
  obtain ⟨rc, hrc, hrun⟩ := parse_run_exists doc rid run h
  subst hrun
  by_cases hempty : rc.segmentTimes = []
  · obtain ⟨_, _, hdd⟩ := metaRun_no_times doc.segments _ rc hempty
    rw [hdd] at hd
    cases hf : (assignIDsToSegments doc.segments).find? (fun s => s.index == 0) with
    | none => rw [hf] at hd; exact Option.noConfusion hd
    | some sf =>
      rw [hf] at hd
      have := List.mem_of_find?_eq_some hf
      exact Option.some.inj hd ▸ this
  · have hkeys := correlate_times_keys_lt doc rid rc hrc
    obtain ⟨s1, hsmem, hlast, hsid, hmax, hcomp, hdeath⟩ :=
      metaRun_with_times doc.segments _ rc hempty hkeys
    rw [hdeath] at hd
    cases hn : s1.nextSegmentId with
    | none => rw [hn] at hd; exact Option.noConfusion hd
    | some j =>
      rw [hn] at hd
      have hd2 : lookupSeg (assignIDsToSegments doc.segments) j = some s := by
        simpa using hd
      exact (lookupSeg_mem _ _ _ hd2).1

theorem parse_run_last_mem (doc : Doc) (rid : String) (run : Run) (s : Segment)
    (h : alookup (parseLivesplitDocument doc).runs rid = some run)
    (hd : run.lastRecordedSegment = some s) : s ∈ assignIDsToSegments doc.segments := by
  obtain ⟨rc, hrc, hrun⟩ := parse_run_exists doc rid run h
  subst hrun
  by_cases hempty : rc.segmentTimes = []
  · obtain ⟨hl, _, _⟩ := metaRun_no_times doc.segments _ rc hempty
    rw [hl] at hd
    exact Option.noConfusion hd
  · have hkeys := correlate_times_keys_lt doc rid rc hrc
    obtain ⟨s1, hsmem, hlast, _, _, _, _⟩ :=
      metaRun_with_times doc.segments _ rc hempty hkeys
    rw [hlast] at hd
    rw [← Option.some.inj hd]
    exact hsmem

theorem assign_totalDeaths_zero (decls : List SegmentDecl) (s : Segment)
    (hs : s ∈ assignIDsToSegments decls) : s.totalDeaths = 0 :=
  (buildSegments_fields decls.length decls 0 s hs).2.1

/-! ### Key-uniqueness and death-count lemmas -/

theorem map_fst_aset_of_not_mem {α β : Type} [DecidableEq α] (m : List (α × β)) (k : α)
    (v : β) (h : k ∉ m.map Prod.fst) :
    (aset m k v).map Prod.fst = m.map Prod.fst ++ [k] := by
  induction m with
  | nil => rfl
  | cons p rest ih =>
    obtain ⟨pk, pv⟩ := p
    have hk : ¬pk = k := by
      intro hcontra
      exact h (by simp [hcontra])
    have hrest : k ∉ rest.map Prod.fst := by
      intro hcontra
      exact h (by simp [hcontra])
    simp [aset, hk, ih hrest]

theorem keys_nodup_aset {α β : Type} [DecidableEq α] (m : List (α × β)) (k : α) (v : β)
    (h : (m.map Prod.fst).Nodup) : ((aset m k v).map Prod.fst).Nodup := by
  by_cases hk : k ∈ m.map Prod.fst
  · rw [map_fst_aset_of_mem m k v hk]
    exact h
  · rw [map_fst_aset_of_not_mem m k v hk]
    simp [List.nodup_append, h, hk]

theorem runData_keys_nodup (attempts : List AttemptDecl) :
    ((runDataFromAttempts attempts).map Prod.fst).Nodup := by
  unfold runDataFromAttempts
  suffices hgen : ∀ acc : List (String × Run), (acc.map Prod.fst).Nodup →
      ((attempts.foldl (fun acc a => aset acc a.id (initRun a)) acc).map Prod.fst).Nodup by
    exact hgen [] (by simp)
  induction attempts with
  | nil => exact fun acc h => h
  | cons a rest ih =>
    intro acc hacc
    rw [List.foldl_cons]
    exact ih _ (keys_nodup_aset acc a.id (initRun a) hacc)

theorem alookup_of_mem_nodup {α β : Type} [DecidableEq α] (m : List (α × β)) (k : α) (v : β)
    (hnd : (m.map Prod.fst).Nodup) (h : (k, v) ∈ m) : alookup m k = some v := by
  induction m with
  | nil => simp at h
  | cons p rest ih =>
    obtain ⟨pk, pv⟩ := p
    have hnd1 : (pk :: rest.map Prod.fst).Nodup := by simpa using hnd
    have hnd2 := List.nodup_cons.1 hnd1
    rcases List.mem_cons.1 h with h1 | h1
    · injection h1 with h1a h1b
      simp [alookup, h1a, h1b]
    · have hkne : ¬pk = k := by
        intro hcontra
        subst hcontra
        exact hnd2.1 (List.mem_map.2 ⟨(pk, v), h1, rfl⟩)
      simp [alookup, hkne]
      exact ih hnd2.2 h1

theorem parse_runs_keys_nodup (doc : Doc) :
    (((parseLivesplitDocument doc).runs).map Prod.fst).Nodup := by
  rw [parse_runs_def]
  unfold runsWithMetadata
  have h1 : ((correlate doc.segments (runDataFromAttempts doc.attempts)).map
      (fun p => (p.1, metaRun (assignIDsToSegments doc.segments)
        ((assignIDsToSegments doc.segments).find? (fun s => s.index == 0)) p.2))).map
        Prod.fst =
      (correlate doc.segments (runDataFromAttempts doc.attempts)).map Prod.fst := by
    rw [List.map_map]
    rfl
  rw [h1, map_fst_correlate]
  exact runData_keys_nodup doc.attempts

theorem parse_run_entry_lookup (doc : Doc) (rid : String) (run : Run)
    (h : (rid, run) ∈ (parseLivesplitDocument doc).runs) :
    alookup (parseLivesplitDocument doc).runs rid = some run :=
  alookup_of_mem_nodup _ rid run (parse_runs_keys_nodup doc) h

theorem map_id_buildSegments (t : ℕ) (l : List SegmentDecl) (i : ℕ) :
    (buildSegments t i l).map Segment.id = List.range' i l.length := by
  induction l generalizing i with
  | nil => rfl
  | cons d rest ih => simp [buildSegments, mkSeg, ih, List.range'_succ]

theorem count_id_one (decls : List SegmentDecl) (sd : Segment)
    (hsd : sd ∈ assignIDsToSegments decls) :
    (assignIDsToSegments decls).countP (fun s => s.id == sd.id) = 1 := by
  have hmap : (assignIDsToSegments decls).map Segment.id = List.range' 0 decls.length :=
    map_id_buildSegments decls.length decls 0
  have h1 : List.count sd.id ((assignIDsToSegments decls).map Segment.id) =
      (assignIDsToSegments decls).countP (fun s => s.id == sd.id) := by
    show List.countP (fun x => x == sd.id) _ = _
    rw [List.countP_map]
    rfl
  have hmem : sd.id ∈ (assignIDsToSegments decls).map Segment.id :=
    List.mem_map.2 ⟨sd, hsd, rfl⟩
  rw [← h1]
  apply List.count_eq_one_of_mem
  · rw [hmap]
    exact List.nodup_range' _ _
  · exact hmem

theorem sum_map_add {α : Type} (l : List α) (f g : α → ℕ) :
    (l.map (fun x => f x + g x)).sum = (l.map f).sum + (l.map g).sum := by
  induction l with
  | nil => rfl
  | cons a rest ih =>
    simp only [List.map_cons, List.sum_cons, ih]
    omega

theorem sum_map_indicator {α : Type} (l : List α) (p : α → Bool) :
    (l.map (fun x => if p x then 1 else 0)).sum = l.countP p := by
  induction l with
  | nil => rfl
  | cons a rest ih =>
    by_cases h : p a = true
    · simp [List.countP_cons, ih, h]
      omega
    · simp [List.countP_cons, ih, h]

theorem countP_death_single (decls : List SegmentDecl) (r : Run)
    (hmem : ∀ sd, r.deathSegment = some sd → sd ∈ assignIDsToSegments decls) :
    (assignIDsToSegments decls).countP (fun s => deathMatches s.id r) =
      (if r.deathSegment.isSome then 1 else 0) := by
  cases hq : r.deathSegment with
  | none =>
    have hz : (assignIDsToSegments decls).countP (fun s => deathMatches s.id r) = 0 :=
      List.countP_eq_zero.2 (fun s _ => by simp [deathMatches, hq])
    rw [hz]
    rfl
  | some sd =>
    have h1 : (assignIDsToSegments decls).countP (fun s => deathMatches s.id r) =
        (assignIDsToSegments decls).countP (fun s => s.id == sd.id) := by
      apply List.countP_congr
      intro s _
      simp [deathMatches, hq]
      omega
    rw [h1, count_id_one decls sd (hmem sd hq)]
    rfl

theorem sum_death_exchange (decls : List SegmentDecl) (runsL : List (String × Run))
    (hmem : ∀ p ∈ runsL, ∀ sd, p.2.deathSegment = some sd →
      sd ∈ assignIDsToSegments decls) :
    ((assignIDsToSegments decls).map
      (fun s => runsL.countP (fun p => deathMatches s.id p.2))).sum =
      runsL.countP (fun p => p.2.deathSegment.isSome) := by
  induction runsL with
  | nil => simp
  | cons q rest ih =>
    have hrest := ih (fun p hp sd hsd => hmem p (List.mem_cons_of_mem _ hp) sd hsd)
    have hfun : (fun (s : Segment) => (q :: rest).countP (fun p => deathMatches s.id p.2)) =
        (fun s => rest.countP (fun p => deathMatches s.id p.2) +
          (if deathMatches s.id q.2 then 1 else 0)) := by
      funext s
      rw [List.countP_cons]
    rw [hfun, sum_map_add, hrest, sum_map_indicator,
      countP_death_single decls q.2 (fun sd hsd => hmem q (List.mem_cons_self _ _) sd hsd),
      List.countP_cons]

theorem mem_segmentsWithMetadata (sbid : List Segment) (runsL : List (String × Run))
    (s2 : Segment) :
    s2 ∈ segmentsWithMetadata sbid runsL ↔
      ∃ s ∈ sbid, s2 =
        { s with totalDeaths := (runsL.filter (fun p => deathMatches s.id p.2)).length } := by
  unfold segmentsWithMetadata
  simp [List.mem_map, eq_comm]

theorem sum_segmentsWithMetadata (sbid : List Segment) (runsL : List (String × Run)) :
    sumTotalDeaths (segmentsWithMetadata sbid runsL) =
      (sbid.map (fun s => runsL.countP (fun p => deathMatches s.id p.2))).sum := by
  unfold sumTotalDeaths segmentsWithMetadata
  rw [List.map_map]
  have hcomp : (Segment.totalDeaths ∘ fun (s : Segment) =>
      { s with totalDeaths := (runsL.filter (fun p => deathMatches s.id p.2)).length }) =
      fun (s : Segment) => runsL.countP (fun p => deathMatches s.id p.2) := by
    funext s
    simp only [Function.comp_apply]
    rw [List.countP_eq_length_filter]
  rw [hcomp]

/-! ### Percentile lemmas -/

theorem cumDeaths_zero (l : List Segment) : cumDeaths l 0 = 0 := rfl

theorem cumDeaths_cons (a : Segment) (rest : List Segment) (k : ℕ) :
    cumDeaths (a :: rest) (k + 1) = a.totalDeaths + cumDeaths rest k := by
  unfold cumDeaths
  simp

theorem percentileScan_cons (rc pn pd init : ℕ) (a : Segment) (rest : List Segment) :
    percentileScan rc pn pd init (a :: rest) =
      if pd * (init + a.totalDeaths) > pn * rc then some a
      else percentileScan rc pn pd (init + a.totalDeaths) rest := rfl

theorem percentileScan_some_iff (rc pn pd : ℕ) (segs : List Segment) :
    ∀ (init : ℕ) (s : Segment),
      percentileScan rc pn pd init segs = some s ↔
        ∃ i, segs[i]? = some s ∧ pd * (init + cumDeaths segs (i + 1)) > pn * rc ∧
          ∀ j, j < i → ¬(pd * (init + cumDeaths segs (j + 1)) > pn * rc) := by
  induction segs with
  | nil =>
    intro init s
    simp [percentileScan]
  | cons a rest ih =>
    intro init s
    rw [percentileScan_cons]
    by_cases hc : pd * (init + a.totalDeaths) > pn * rc
    · rw [if_pos hc]
      constructor
      · intro h
        have hs : a = s := Option.some.inj h
        refine ⟨0, by simp [hs], ?_, by omega⟩
        simpa [cumDeaths_cons, cumDeaths_zero] using hc
      · rintro ⟨i, hi, hcond, hmin⟩
        cases i with
        | zero =>
          have hs : a = s := by simpa using hi
          rw [hs]
        | succ i =>
          exfalso
          apply hmin 0 (by omega)
          simpa [cumDeaths_cons, cumDeaths_zero] using hc
    · rw [if_neg hc, ih (init + a.totalDeaths) s]
      constructor
      · rintro ⟨i, hi, hcond, hmin⟩
        refine ⟨i + 1, by simpa using hi, ?_, ?_⟩
        · rw [cumDeaths_cons, ← Nat.add_assoc]
          exact hcond
        · intro j hj
          cases j with
          | zero =>
            intro hcontra
            apply hc
            simpa [cumDeaths_cons, cumDeaths_zero] using hcontra
          | succ j =>
            have hji := hmin j (by omega)
            intro hcontra
            apply hji
            rw [cumDeaths_cons, ← Nat.add_assoc] at hcontra
            exact hcontra
      · rintro ⟨i, hi, hcond, hmin⟩
        cases i with
        | zero =>
          exfalso
          apply hc
          simpa [cumDeaths_cons, cumDeaths_zero] using hcond
        | succ i =>
          refine ⟨i, by simpa using hi, ?_, ?_⟩
          · rw [cumDeaths_cons, ← Nat.add_assoc] at hcond
            exact hcond
          · intro j hj
            have := hmin (j + 1) (by omega)
            intro hcontra
            apply this
            rw [cumDeaths_cons, ← Nat.add_assoc]
            exact hcontra

theorem percentileScan_none_iff (rc pn pd : ℕ) (segs : List Segment) :
    ∀ init, percentileScan rc pn pd init segs = none ↔
      ∀ i, i < segs.length → ¬(pd * (init + cumDeaths segs (i + 1)) > pn * rc) := by
  induction segs with
  | nil =>
    intro init
    simp [percentileScan]
  | cons a rest ih =>
    intro init
    rw [percentileScan_cons]
    by_cases hc : pd * (init + a.totalDeaths) > pn * rc
    · rw [if_pos hc]
      constructor
      · intro h
        exact Option.noConfusion h
      · intro h
        exfalso
        apply h 0 (by simp)
        simpa [cumDeaths_cons, cumDeaths_zero] using hc
    · rw [if_neg hc, ih (init + a.totalDeaths)]
      constructor
      · intro h i hlen
        cases i with
        | zero =>
          intro hcontra
          apply hc
          simpa [cumDeaths_cons, cumDeaths_zero] using hcontra
        | succ i =>
          have := h i (by simpa using hlen)
          intro hcontra
          apply this
          rw [cumDeaths_cons, ← Nat.add_assoc] at hcontra
          exact hcontra
      · intro h i hlen
        have := h (i + 1) (by simpa using hlen)
        intro hcontra
        apply this
        rw [cumDeaths_cons, ← Nat.add_assoc]
        exact hcontra

theorem fold_perc_not_mem (d : LivesplitData) (ps : List (ℕ × ℕ))
    (acc : List ((ℕ × ℕ) × Segment)) (p : ℕ × ℕ) (hp : p ∉ ps) :
    alookup (ps.foldl (fun acc q =>
      match percentileScan d.runCount q.1 q.2 0 d.segments with
      | some s => aset acc q s
      | none => acc) acc) p = alookup acc p := by
  induction ps generalizing acc with
  | nil => rfl
  | cons q rest ih =>
    have hq : p ≠ q := fun e => hp (e ▸ List.mem_cons_self _ _)
    have hrest : p ∉ rest := fun hmm => hp (List.mem_cons_of_mem _ hmm)
    rw [List.foldl_cons, ih _ hrest]
    cases hscan : percentileScan d.runCount q.1 q.2 0 d.segments with
    | none => rfl
    | some s => exact alookup_aset_ne acc q p s hq

theorem fold_perc_mem (d : LivesplitData) (ps : List (ℕ × ℕ)) :
    ∀ (acc : List ((ℕ × ℕ) × Segment)) (p : ℕ × ℕ), p ∈ ps → ps.Nodup →
      alookup (ps.foldl (fun acc q =>
        match percentileScan d.runCount q.1 q.2 0 d.segments with
        | some s => aset acc q s
        | none => acc) acc) p =
        (match percentileScan d.runCount p.1 p.2 0 d.segments with
         | some s => some s
         | none => alookup acc p) := by
  induction ps with
  | nil => intro acc p hp _; simp at hp
  | cons q rest ih =>
    intro acc p hp hnd
    rw [List.foldl_cons]
    have hndc := List.nodup_cons.1 hnd
    rcases List.mem_cons.1 hp with rfl | hmem
    · rw [fold_perc_not_mem d rest _ p hndc.1]
      cases hscan : percentileScan d.runCount p.1 p.2 0 d.segments with
      | none => rfl
      | some s => exact alookup_aset_self acc p s
    · have hpq : p ≠ q := fun e => hndc.1 (e ▸ hmem)
      rw [ih _ p hmem hndc.2]
      cases hscanp : percentileScan d.runCount p.1 p.2 0 d.segments with
      | some s => rfl
      | none =>
        cases hscanq : percentileScan d.runCount q.1 q.2 0 d.segments with
        | none => rfl
        | some s => exact alookup_aset_ne acc q p s hpq

theorem calculatePercentiles_lookup (d : LivesplitData) (pn pd : ℕ)
    (hmem : (pn, pd) ∈ PERCENTILES) :
    alookup (calculatePercentiles d) (pn, pd) =
      percentileScan d.runCount pn pd 0 d.segments := by
  unfold calculatePercentiles
  rw [fold_perc_mem d PERCENTILES [] (pn, pd) hmem (by decide)]
  cases hscan : percentileScan d.runCount pn pd 0 d.segments with
  | none => rfl
  | some s => rfl

theorem map_index_buildSegments (t : ℕ) (l : List SegmentDecl) (i : ℕ) :
    (buildSegments t i l).map Segment.index = List.range' i l.length := by
  induction l generalizing i with
  | nil => rfl
  | cons d rest ih => simp [buildSegments, mkSeg, ih, List.range'_succ]

theorem parse_segments_index (doc : Doc) :
    (parseLivesplitDocument doc).segments.map Segment.index =
      List.range doc.segments.length := by
  rw [parse_segments_def]
  unfold segmentsWithMetadata
  rw [List.map_map]
  have hcomp : (Segment.index ∘ fun (s : Segment) =>
      { s with totalDeaths := ((runsWithMetadata (assignIDsToSegments doc.segments)
          (correlate doc.segments (runDataFromAttempts doc.attempts))).filter
          (fun p => deathMatches s.id p.2)).length }) = Segment.index := by
    funext s
    rfl
  rw [hcomp, List.range_eq_range']
  exact map_index_buildSegments doc.segments.length doc.segments 0

/-! ### Claim theorems -/

/-- C4: an attempt with no end timestamp has duration exactly 0; otherwise
the duration is `(ended - started)` minus the day-prefix milliseconds and
the parsed pause clock of the pause-time token; negative or zero results
are returned normally — and the pause token `"1.02:00:00.0000000"` against
a 3-hour wall-clock span yields 1 hour minus 1 day. -/
theorem c4_attempt_duration :
    (∀ a : AttemptDecl, a.ended = none → calculateAttemptDuration a = some 0) ∧
    (∀ (a : AttemptDecl) (e : Int), a.ended = some e → a.pauseTime = none →
      calculateAttemptDuration a = some (e - a.started)) ∧
    (∀ (a : AttemptDecl) (e : Int) (p : String) (off : ℕ),
      a.ended = some e → a.pauseTime = some p →
      dateFnsClock (stripDays (trimChars p.toList)).2 = some off →
      calculateAttemptDuration a =
        some (e - a.started -
          ((stripDays (trimChars p.toList)).1 : Int) * 86400000 - (off : Int))) ∧
    calculateAttemptDuration
      { id := "a", started := 0, ended := some 10800000,
        pauseTime := some "1.02:00:00.0000000" } =
      some (3600000 - 86400000) := by
  refine ⟨?_, ?_, ?_, by decide⟩
  · intro a h
    unfold calculateAttemptDuration
    rw [h]
  · intro a e he hp
    unfold calculateAttemptDuration
    rw [he, hp]
  · intro a e p off he hp hclock
    unfold calculateAttemptDuration
    rw [he, hp]
    simp only [hclock, Option.map_some']

/-- C4 witness: the pause-subtraction conjunct applied at a concrete
attempt whose pause token parses to two hours. -/
theorem c4_witness :
    calculateAttemptDuration
      { id := "w", started := 100, ended := some 7300100,
        pauseTime := some "02:00:00.0000000" } =
      some (7300100 - 100 -
        ((stripDays (trimChars ("02:00:00.0000000" : String).toList)).1 : Int) * 86400000 -
        ((7200000 : ℕ) : Int)) :=
  c4_attempt_duration.2.2.1 _ 7300100 "02:00:00.0000000" 7200000 rfl rfl (by decide)

/-- C5: `parseTimestamp` fails exactly when, after stripping any leading
day-count group from the trimmed input, the clock portion does not match
the `HH:mm:ss` pattern with an optional 1-7 digit fractional suffix; on a
matching clock it returns `days × 86 400 000` plus the clock offset. -/
theorem c5_parse_timestamp :
    ∀ s : String,
      (parseTimestamp s = none ↔
        specClockPattern (stripDays (trimChars s.toList)).2 = none) ∧
      (∀ off : ℕ, specClockPattern (stripDays (trimChars s.toList)).2 = some off →
        parseTimestamp s =
          some (((stripDays (trimChars s.toList)).1 : Int) * 86400000 + (off : Int))) := by
  intro s
  rw [parseTimestamp_eq_spec s]
  constructor
  · cases h : specClockPattern (stripDays (trimChars s.toList)).2 with
    | none => simp [h]
    | some off => simp [h]
  · intro off hoff
    rw [hoff]
    rfl

/-- C5 witness: a day-prefixed canonical token parses to one day plus two
hours of milliseconds. -/
theorem c5_witness : parseTimestamp "1.02:00:00.0000000" = some 93600000 := by
  have h := (c5_parse_timestamp "1.02:00:00.0000000").2 7200000 (by decide)
  rw [h]
  decide

/-- C3: for each target fraction in `{1/2, 3/4, 9/10, 19/20}` (the exact
values of the source literals), the percentile mapping associates the
first segment, in walk order, whose cumulative death fraction strictly
exceeds the target (`pd * cum > pn * runCount`), and has no entry when no
prefix exceeds it; and the segments of a parsed document are listed in
index order, so the walk is in index order. -/
theorem c3_percentiles :
    (∀ (data : LivesplitData) (pn pd : ℕ), (pn, pd) ∈ PERCENTILES →
      ((∀ s : Segment,
          alookup (calculatePercentiles data) (pn, pd) = some s ↔
            ∃ i, data.segments[i]? = some s ∧
              pd * cumDeaths data.segments (i + 1) > pn * data.runCount ∧
              ∀ j, j < i →
                ¬(pd * cumDeaths data.segments (j + 1) > pn * data.runCount)) ∧
        (alookup (calculatePercentiles data) (pn, pd) = none ↔
          ∀ i, i < data.segments.length →
            ¬(pd * cumDeaths data.segments (i + 1) > pn * data.runCount)))) ∧
    (∀ doc : Doc,
      (parseLivesplitDocument doc).segments.map Segment.index =
        List.range doc.segments.length) := by
  constructor
  · intro data pn pd hmem
    rw [calculatePercentiles_lookup data pn pd hmem]
    constructor
    · intro s
      have h := percentileScan_some_iff data.runCount pn pd data.segments 0 s
      simpa using h
    · have h := percentileScan_none_iff data.runCount pn pd data.segments 0
      simpa using h
  · exact parse_segments_index

/-- C3 witness: on three segments with one death each out of four
attempts, the 50th percentile resolves to the third segment. -/
theorem c3_witness : alookup (calculatePercentiles data3) (1, 2) = some seg3C :=
  ((c3_percentiles.1 data3 1 2 (by decide)).1 seg3C).2
    ⟨2, by decide, by decide, by
      intro j hj
      interval_cases j <;> decide⟩

/-- C1: the claim says `personalBest` is the complete attempt with minimum
`totalDuration` (absent when none is complete); the code's reduce never
consults `isComplete`.  On `cDocC1`, attempt "1" is complete with duration
5000 ms, attempt "2" is incomplete with duration 0, and the code returns
the incomplete attempt "2" as the personal best — the intended fastest
*completed* run is attempt "1". -/
theorem c1_personal_best_ignores_completeness :
    ((parseLivesplitDocument cDocC1).personalBest.map (fun r => (r.id, r.isComplete))) =
      some ("2", false) ∧
    ((alookup (parseLivesplitDocument cDocC1).runs "1").map
      (fun r => (r.isComplete, r.totalDuration))) = some (true, some 5000) ∧
    ((alookup (parseLivesplitDocument cDocC1).runs "2").map
      (fun r => (r.isComplete, r.totalDuration))) = some (false, some 0) := by
  refine ⟨by decide, by decide, by decide⟩

/-- C6 counterexample: on a document with zero segments and one attempt,
the code returns a run that is neither complete nor has a death segment,
so "exactly one of isComplete / death segment present" fails as stated. -/
theorem c6_counterexample :
    ((alookup (parseLivesplitDocument cDocNoSegs).runs "1").map
      (fun run => (run.isComplete, run.deathSegment.isSome))) = some (false, false) := by
  decide

/-- C6 (amended: for documents with at least one segment): every attempt
in the result satisfies exactly one of isComplete = true and
deathSegment present — the completion flag is true iff the death segment
is absent. -/
theorem c6_complete_xor_death :
    ∀ (doc : Doc) (rid : String) (run : Run), doc.segments ≠ [] →
      alookup (parseLivesplitDocument doc).runs rid = some run →
      (run.isComplete = true ↔ run.deathSegment = none) := by
  intro doc rid run hne h
  obtain ⟨h1, h2⟩ := parse_run_meta doc rid run hne h
  constructor
  · exact h1
  · intro hd
    cases hb : run.isComplete with
    | true => rfl
    | false =>
      obtain ⟨s, hs, _⟩ := h2 hb
      rw [hd] at hs
      exact Option.noConfusion hs

/-- C6 witness: the incomplete attempt "2" of `cDocC1` has a death
segment, so both sides of the equivalence are false. -/
theorem c6_witness : cRun2C1.isComplete = true ↔ cRun2C1.deathSegment = none :=
  c6_complete_xor_death cDocC1 "2" cRun2C1 (by decide) (by decide)

/-- C8 counterexample: the claim says zero attempts fail fast with a
DegenerateInputError; no such error exists in the code — on one segment
and zero attempts the engine returns an ordinary result model. -/
theorem c8_counterexample :
    parseLivesplitDocument cDocC8 =
      { segments := [{ id := 0, name := "A", index := 0, nextSegmentId := none,
                       isLastSegment := true, totalDeaths := 0 }],
        runs := [], runCount := 0, totalDuration := some 0,
        longestAttemptDuration := none, personalBest := none } := by
  decide

/-- C8 (amended): on a document with zero attempt records the engine does
not fail: it returns a result model with no runs, runCount 0, total
duration 0, no personal best, and the empty-maximum longest duration. -/
theorem c8_zero_attempts :
    ∀ doc : Doc, doc.attempts = [] →
      (parseLivesplitDocument doc).runs = [] ∧
      (parseLivesplitDocument doc).runCount = 0 ∧
      (parseLivesplitDocument doc).totalDuration = some 0 ∧
      (parseLivesplitDocument doc).personalBest = none ∧
      (parseLivesplitDocument doc).longestAttemptDuration = none := by
  intro doc h
  have hbase : runDataFromAttempts doc.attempts = [] := by rw [h]; rfl
  have hcorr : correlate doc.segments (runDataFromAttempts doc.attempts) = [] := by
    apply List.map_eq_nil_iff.1
    rw [map_fst_correlate, hbase]
    rfl
  have hrwm : runsWithMetadata (assignIDsToSegments doc.segments)
      (correlate doc.segments (runDataFromAttempts doc.attempts)) = [] := by
    rw [hcorr]
    rfl
  refine ⟨?_, ?_, ?_, ?_, ?_⟩
  · rw [parse_runs_def, hrwm]
  · rw [parse_runCount_def, parse_runs_def, hrwm]
    rfl
  · have hd : (parseLivesplitDocument doc).totalDuration =
        ((runsWithMetadata (assignIDsToSegments doc.segments)
          (correlate doc.segments (runDataFromAttempts doc.attempts))).map
            Prod.snd).foldl (fun acc r => jsAdd acc r.totalDuration) (some 0) := rfl
    rw [hd, hrwm]
    rfl
  · have hd : (parseLivesplitDocument doc).personalBest =
        ((runsWithMetadata (assignIDsToSegments doc.segments)
          (correlate doc.segments (runDataFromAttempts doc.attempts))).map
            Prod.snd).foldl pbStep none := rfl
    rw [hd, hrwm]
    rfl
  · have hd : (parseLivesplitDocument doc).longestAttemptDuration =
        jsMaxList (((runsWithMetadata (assignIDsToSegments doc.segments)
          (correlate doc.segments (runDataFromAttempts doc.attempts))).map
            Prod.snd).map Run.totalDuration) := rfl
    rw [hd, hrwm]
    rfl

/-- C8 witness: the amended statement at the concrete one-segment,
zero-attempt document. -/
theorem c8_witness :
    (parseLivesplitDocument cDocC8).runCount = 0 ∧
    (parseLivesplitDocument cDocC8).personalBest = none :=
  ⟨(c8_zero_attempts cDocC8 rfl).2.1, (c8_zero_attempts cDocC8 rfl).2.2.2.1⟩

/-- C9: the correlator adds no keys beyond the extracted attempts (an
entry citing an unknown attempt identity is silently ignored), and for
every extracted attempt and every segment, the stored segment-time value
comes from the last history entry citing that attempt: the parsed game
time if a game-time element is present, else the parsed real time, else
the null value; no entry at all leaves the key absent. -/
theorem c9_correlator :
    ∀ (doc : Doc) (rid : String),
      ((parseLivesplitDocument doc).runs.map Prod.fst =
        (runDataFromAttempts doc.attempts).map Prod.fst) ∧
      (alookup (runDataFromAttempts doc.attempts) rid = none →
        alookup (parseLivesplitDocument doc).runs rid = none) ∧
      (∀ run0, alookup (runDataFromAttempts doc.attempts) rid = some run0 →
        ∃ run1, alookup (parseLivesplitDocument doc).runs rid = some run1 ∧
          run1.id = run0.id ∧ run1.totalDuration = run0.totalDuration ∧
          ∀ sid d, (sid, d) ∈ enumFrom 0 doc.segments →
            alookup run1.segmentTimes sid = (lastEntryFor d.history rid).map entryValue) := by
  intro doc rid
  refine ⟨?_, ?_, ?_⟩
  · rw [parse_runs_def]
    unfold runsWithMetadata
    rw [List.map_map]
    have hc : (Prod.fst ∘ fun (p : String × Run) =>
        (p.1, metaRun (assignIDsToSegments doc.segments)
          ((assignIDsToSegments doc.segments).find? (fun s => s.index == 0)) p.2)) =
        (Prod.fst : String × Run → String) := funext fun p => rfl
    rw [hc, map_fst_correlate]
  · intro h
    rw [parse_runs_def, runsWithMetadata_alookup, correlate_lookup_none _ _ _ h]
    rfl
  · intro run0 h
    obtain ⟨rc, hrc, hid, hdur, _, _, _, hin, _⟩ := correlate_found doc rid run0 h
    refine ⟨metaRun (assignIDsToSegments doc.segments)
      ((assignIDsToSegments doc.segments).find? (fun s => s.index == 0)) rc,
      ?_, ?_, ?_, ?_⟩
    · rw [parse_runs_def, runsWithMetadata_alookup, hrc]
      rfl
    · rw [(metaRun_preserves _ _ rc).2.1, hid]
    · rw [(metaRun_preserves _ _ rc).2.2, hdur]
    · intro sid d hmm
      rw [(metaRun_preserves _ _ rc).1]
      exact hin sid d hmm

/-- C9 witness: the correlator characterization applied to attempt "1" of
`cDocC1`. -/
theorem c9_witness :
    ∃ run1, alookup (parseLivesplitDocument cDocC1).runs "1" = some run1 ∧
      run1.id = (initRun cAtt1C1).id ∧
      run1.totalDuration = (initRun cAtt1C1).totalDuration ∧
      ∀ sid d, (sid, d) ∈ enumFrom 0 cDocC1.segments →
        alookup run1.segmentTimes sid = (lastEntryFor d.history "1").map entryValue :=
  (c9_correlator cDocC1 "1").2.2 (initRun cAtt1C1) (by decide)

/-- C10: the segment objects stored in a run's `lastRecordedSegment` and
`deathSegment` are snapshots taken before death totals are computed, so
they always carry `totalDeaths = 0`; hence for any segment of the result
collection with at least one attributed death, the snapshot of the same
identity embedded in a run disagrees with it on `totalDeaths`. -/
theorem c10_snapshot_deaths :
    ∀ (doc : Doc) (rid : String) (run : Run),
      alookup (parseLivesplitDocument doc).runs rid = some run →
      ((∀ s, run.lastRecordedSegment = some s → s.totalDeaths = 0) ∧
       (∀ s, run.deathSegment = some s → s.totalDeaths = 0) ∧
       (∀ s s2, run.deathSegment = some s → s2 ∈ (parseLivesplitDocument doc).segments →
         s2.id = s.id → 1 ≤ s2.totalDeaths → ¬s2.totalDeaths = s.totalDeaths)) := by
  intro doc rid run h
  refine ⟨?_, ?_, ?_⟩
  · intro s hs
    exact assign_totalDeaths_zero _ s (parse_run_last_mem doc rid run s h hs)
  · intro s hs
    exact assign_totalDeaths_zero _ s (parse_run_death_mem doc rid run s h hs)
  · intro s s2 hs _ _ hge
    have h0 := assign_totalDeaths_zero _ s (parse_run_death_mem doc rid run s h hs)
    omega

/-- C10 witness: attempt "2" of `cDocC1` embeds a death-segment snapshot
with zero deaths, while the result collection records one death on the
segment of the same identity. -/
theorem c10_witness :
    cRun2C1.deathSegment = some cSegA1 ∧ cSegA1.totalDeaths = 0 ∧
    ((parseLivesplitDocument cDocC1).segments.map Segment.totalDeaths = [1]) :=
  ⟨by decide,
   (c10_snapshot_deaths cDocC1 "2" cRun2C1 (by decide)).2.1 cSegA1 (by decide),
   by decide⟩

/-- C2 counterexample: in `cDocC2` the attempt has a non-null time on
segment 0 and a null entry on segment 1.  The claim (greatest index among
*non-null* entries) predicts last-reached segment 0, hence incomplete with
a death segment; the code counts the null entry's key and yields
last-reached index 1, `isComplete = true`, and no death segment. -/
theorem c2_counterexample :
    ((alookup (parseLivesplitDocument cDocC2).runs "1").map
      (fun run => (alookup run.segmentTimes 0, alookup run.segmentTimes 1,
        run.lastRecordedSegment.map Segment.index, run.isComplete,
        run.deathSegment.isSome))) =
      some (some (some (some 5000)), some none, some 1, true, false) := by
  decide

/-- C2 (amended): the last-reached segment is the one with the greatest
index among all segments whose key is *present* in the attempt's
segment-time mapping, null values included; `isComplete` is true iff that
segment is the terminal one; and, for documents with at least one
segment: the death segment is absent if complete, is the index-0 segment
when the mapping is empty, and otherwise is the segment whose identity
equals the last-reached segment's next-segment identity. -/
theorem c2_last_reached :
    ∀ (doc : Doc) (rid : String) (run : Run), doc.segments ≠ [] →
      alookup (parseLivesplitDocument doc).runs rid = some run →
      ((run.segmentTimes = [] → run.lastRecordedSegment = none) ∧
       (run.segmentTimes ≠ [] →
         ∃ s, run.lastRecordedSegment = some s ∧
           s.id ∈ run.segmentTimes.map Prod.fst ∧
           (∀ k ∈ run.segmentTimes.map Prod.fst, ∀ t,
             lookupSeg (assignIDsToSegments doc.segments) k = some t →
               t.index ≤ s.index)) ∧
       (run.isComplete = true ↔
         ∃ s, run.lastRecordedSegment = some s ∧ s.isLastSegment = true) ∧
       (run.isComplete = true → run.deathSegment = none) ∧
       (run.segmentTimes = [] → ∃ s, run.deathSegment = some s ∧ s.index = 0) ∧
       (run.segmentTimes ≠ [] → run.isComplete = false →
         ∃ s s2, run.lastRecordedSegment = some s ∧ run.deathSegment = some s2 ∧
           s.nextSegmentId = some s2.id)) := by
  intro doc rid run hne h
  obtain ⟨rc, hrc, hrun⟩ := parse_run_exists doc rid run h
  subst hrun
  have hpres := metaRun_preserves (assignIDsToSegments doc.segments)
    ((assignIDsToSegments doc.segments).find? (fun s => s.index == 0)) rc
  by_cases hempty : rc.segmentTimes = []
  · obtain ⟨hl, hcmp, hd⟩ := metaRun_no_times doc.segments _ rc hempty
    obtain ⟨sf, hsf, hsfmem, hsfidx, _⟩ := firstSeg_assign doc.segments hne
    refine ⟨fun _ => hl, ?_, ?_, ?_, ?_, ?_⟩
    · intro hne2
      exact absurd (hpres.1.trans hempty) hne2
    · constructor
      · intro hc
        rw [hcmp] at hc
        exact Bool.noConfusion hc
      · rintro ⟨s, hs, _⟩
        rw [hl] at hs
        exact Option.noConfusion hs
    · intro hc
      rw [hcmp] at hc
      exact Bool.noConfusion hc
    · intro _
      exact ⟨sf, by rw [hd, hsf], hsfidx⟩
    · intro hne2
      exact absurd (hpres.1.trans hempty) hne2
  · have hkeys := correlate_times_keys_lt doc rid rc hrc
    obtain ⟨s, hsmem, hlast, hsid, hmax, hcomp, hdeath⟩ :=
      metaRun_with_times doc.segments _ rc hempty hkeys
    refine ⟨?_, ?_, ?_, ?_, ?_, ?_⟩
    · intro hzero
      exact absurd (hpres.1.symm.trans hzero) hempty
    · intro _
      refine ⟨s, hlast, ?_, ?_⟩
      · rw [hpres.1]
        exact hsid
      · intro k hk t ht
        rw [hpres.1] at hk
        have hm := lookupSeg_mem _ _ _ ht
        have hf := buildSegments_fields doc.segments.length doc.segments 0 t hm.1
        have hkidx : t.index = k := by rw [← hf.1]; exact hm.2
        rw [hkidx]
        exact hmax k hk
    · constructor
      · intro hc
        rw [hcomp] at hc
        exact ⟨s, hlast, hc⟩
      · rintro ⟨s2, hs2, hs2last⟩
        rw [hlast] at hs2
        have hss : s = s2 := Option.some.inj hs2
        rw [hcomp, hss]
        exact hs2last
    · intro hc
      rw [hcomp] at hc
      have hnext := (seg_last_iff_next_none doc.segments s hsmem).1 hc
      rw [hdeath, hnext]
      rfl
    · intro hzero
      exact absurd (hpres.1.symm.trans hzero) hempty
    · intro _ hc
      rw [hcomp] at hc
      have hfields := buildSegments_fields doc.segments.length doc.segments 0 s hsmem
      have hidxlt : s.index < doc.segments.length := by
        have := hfields.2.2.2.2.2
        omega
      have hnotlast : ¬s.index = doc.segments.length - 1 := by
        intro hcontra
        have hbad : s.isLastSegment = true := by
          rw [hfields.2.2.2.1]
          simp [hcontra]
        rw [hc] at hbad
        exact Bool.noConfusion hbad
      have hnextsome : s.nextSegmentId = some (s.index + 1) := by
        rw [hfields.2.2.1, if_pos (by omega)]
      obtain ⟨s2, hs2, hs2idx, hs2id⟩ :=
        lookupSeg_assign_lt doc.segments (s.index + 1) (by omega)
      refine ⟨s, s2, hlast, ?_, ?_⟩
      · rw [hdeath, hnextsome]
        simpa using hs2
      · rw [hnextsome, hs2id]

/-- C2 witness: on `cDocC1`, attempt "2" has no time entries and its
death segment is the index-0 segment. -/
theorem c2_witness : ∃ s, cRun2C1.deathSegment = some s ∧ s.index = 0 :=
  (c2_last_reached cDocC1 "2" cRun2C1 (by decide) (by decide)).2.2.2.2.1 (by decide)

/-- C7 counterexample: with zero segments and one attempt, every
per-segment conjunct is vacuous but the sum equation fails: the sum of
death totals is 0 while `runCount - completedCount = 1`. -/
theorem c7_counterexample :
    (parseLivesplitDocument cDocNoSegs).runCount = 1 ∧
    completedCount (parseLivesplitDocument cDocNoSegs).runs = 0 ∧
    sumTotalDeaths (parseLivesplitDocument cDocNoSegs).segments = 0 := by
  refine ⟨by decide, by decide, by decide⟩

/-- C7 (amended: the sum equation requires at least one segment): every
result segment's totalDeaths counts the attempts whose death-segment
identity equals its identity, totalDeaths never exceeds runCount, and for
documents with at least one segment the death totals sum to the attempt
count minus the number of complete attempts. -/
theorem c7_death_totals :
    ∀ doc : Doc,
      (∀ s2 ∈ (parseLivesplitDocument doc).segments,
        s2.totalDeaths = (((parseLivesplitDocument doc).runs).filter
          (fun p => (p.2.deathSegment.map Segment.id) == some s2.id)).length) ∧
      (∀ s2 ∈ (parseLivesplitDocument doc).segments,
        s2.totalDeaths ≤ (parseLivesplitDocument doc).runCount) ∧
      (doc.segments ≠ [] →
        sumTotalDeaths (parseLivesplitDocument doc).segments +
          completedCount (parseLivesplitDocument doc).runs =
          (parseLivesplitDocument doc).runCount) := by
  intro doc
  have hA : ∀ s2 ∈ (parseLivesplitDocument doc).segments,
      s2.totalDeaths = (((parseLivesplitDocument doc).runs).filter
        (fun p => (p.2.deathSegment.map Segment.id) == some s2.id)).length := by
    intro s2 hmem
    rw [parse_segments_def] at hmem
    obtain ⟨s, hs, heq⟩ := (mem_segmentsWithMetadata _ _ s2).1 hmem
    subst heq
    rw [parse_runs_def]
    rfl
  refine ⟨hA, ?_, ?_⟩
  · intro s2 hmem
    rw [hA s2 hmem, parse_runCount_def]
    exact List.length_filter_le _ _
  · intro hne
    have hmemdeath : ∀ p ∈ (parseLivesplitDocument doc).runs, ∀ sd,
        p.2.deathSegment = some sd → sd ∈ assignIDsToSegments doc.segments := by
      intro p hp sd hsd
      exact parse_run_death_mem doc p.1 p.2 sd (parse_run_entry_lookup doc p.1 p.2 hp) hsd
    have hsum : sumTotalDeaths (parseLivesplitDocument doc).segments =
        ((assignIDsToSegments doc.segments).map
          (fun s => ((parseLivesplitDocument doc).runs).countP
            (fun p => deathMatches s.id p.2))).sum := by
      rw [parse_segments_def, sum_segmentsWithMetadata, ← parse_runs_def]
    have hx := sum_death_exchange doc.segments ((parseLivesplitDocument doc).runs) hmemdeath
    have hcong : ((parseLivesplitDocument doc).runs).countP
        (fun p => p.2.deathSegment.isSome) =
        ((parseLivesplitDocument doc).runs).countP (fun p => !p.2.isComplete) := by
      apply List.countP_congr
      intro p hp
      have hlk := parse_run_entry_lookup doc p.1 p.2 hp
      obtain ⟨h1, h2⟩ := parse_run_meta doc p.1 p.2 hne hlk
      cases hb : p.2.isComplete with
      | true => simp [h1 hb, hb]
      | false =>
        obtain ⟨sd, hsd, _⟩ := h2 hb
        simp [hsd, hb]
    have hcc : completedCount (parseLivesplitDocument doc).runs =
        ((parseLivesplitDocument doc).runs).countP (fun p => p.2.isComplete) := by
      unfold completedCount
      rw [List.countP_eq_length_filter]
    have hlen := List.length_eq_countP_add_countP
      (fun p : String × Run => p.2.isComplete) ((parseLivesplitDocument doc).runs)
    have hnn : ((parseLivesplitDocument doc).runs).countP
        (fun p => decide ¬((fun q : String × Run => q.2.isComplete) p = true)) =
        ((parseLivesplitDocument doc).runs).countP (fun p => !p.2.isComplete) := by
      apply List.countP_congr
      intro p _
      cases hb : p.2.isComplete <;> simp [hb]
    have hrc : (parseLivesplitDocument doc).runCount =
        ((parseLivesplitDocument doc).runs).length := parse_runCount_def doc
    rw [hsum, hx, hcong, hcc, hrc, hlen, hnn]
    omega

/-- C7 witness: the sum equation at `cDocC1` — one death, one completed
attempt, two attempts in total. -/
theorem c7_witness :
    sumTotalDeaths (parseLivesplitDocument cDocC1).segments +
      completedCount (parseLivesplitDocument cDocC1).runs =
      (parseLivesplitDocument cDocC1).runCount :=
  (c7_death_totals cDocC1).2.2 (by decide)

end Timeloss
